import Mathlib

/-!
Verification development for the pdf2md converter (src/main.py).

Python strings are modelled as `List Char` (a Python `str` is a sequence of
code points).  Python's whitespace-sensitive primitives (`str.strip`,
`str.split`, the regex classes `\s`, `\d`) are modelled by explicit
character predicates.  Case predicates (`islower`, `isupper`) are modelled
on the ASCII range; every string the pipeline classifies has been passed
through `clean_unicode` first and is therefore pure ASCII.  The floating
point ratio tests of the source (`x / n > 0.3`, `c >= n * 0.7`) are
modelled by the exact rational comparisons `10 * x > 3 * n` and
`10 * c ≥ 7 * n`; these agree with the double precision evaluation for
every count that fits a real document (divergence would need more than
10^13 lines on one page).
-/

namespace Pdf2Md

/-- A Python string: a sequence of code points. -/
abbrev Str := List Char

/-- Python whitespace: the characters for which `str.isspace()` holds,
which is also the set matched by the regex class `\s` and stripped by
`str.strip()` / split on by `str.split()`. -/
def pyIsSpace (c : Char) : Bool :=
  c = ' ' || c = '\t' || c = '\n' || c = '\r' || c = '\x0b' || c = '\x0c' ||
  (0x1c ≤ c.toNat && c.toNat ≤ 0x1f) ||
  c.toNat = 0x85 || c.toNat = 0xa0 || c.toNat = 0x1680 ||
  (0x2000 ≤ c.toNat && c.toNat ≤ 0x200a) ||
  c.toNat = 0x2028 || c.toNat = 0x2029 || c.toNat = 0x202f ||
  c.toNat = 0x205f || c.toNat = 0x3000

/-- ASCII decimal digit, the regex class `\d` on the pipeline's (ASCII) text. -/
def pyIsDigit (c : Char) : Bool := '0' ≤ c && c ≤ '9'

/-- ASCII lower case letter (`str.islower` on one character, ASCII range). -/
def pyIsLower (c : Char) : Bool := 'a' ≤ c && c ≤ 'z'

/-- ASCII upper case letter (`str.isupper` on one character, ASCII range). -/
def pyIsUpper (c : Char) : Bool := 'A' ≤ c && c ≤ 'Z'

/-- ASCII cased character (ASCII model of a Unicode cased code point). -/
def pyIsCased (c : Char) : Bool := pyIsLower c || pyIsUpper c

/-- `str.lower` on one ASCII character. -/
def pyToLower (c : Char) : Char :=
  if pyIsUpper c then Char.ofNat (c.toNat + 32) else c

/-- `str.strip()`: remove leading and trailing whitespace. -/
def pyStrip (s : Str) : Str :=
  ((s.dropWhile pyIsSpace).reverse.dropWhile pyIsSpace).reverse

/-- `str.rstrip()`: remove trailing whitespace. -/
def pyRStrip (s : Str) : Str :=
  (s.reverse.dropWhile pyIsSpace).reverse

/-- `text.split('\n')`: split at every newline, keeping empty pieces. -/
def splitNl : Str → List Str
  | [] => [[]]
  | c :: rest =>
    if c = '\n' then [] :: splitNl rest
    else
      match splitNl rest with
      | [] => [[c]]
      | h :: t => (c :: h) :: t

/-- `'\n'.join(pieces)`. -/
def joinNl : List Str → Str
  | [] => []
  | [l] => l
  | l :: ls => l ++ '\n' :: joinNl ls

/-- `' '.join(pieces)`. -/
def joinSp : List Str → Str
  | [] => []
  | [l] => l
  | l :: ls => l ++ ' ' :: joinSp ls

/-- Python's `sub in s` substring test. -/
def containsSub (pat s : Str) : Bool :=
  s.tails.any (fun t => pat.isPrefixOf t)

/-- `str.isupper()` on a whole string (ASCII model): at least one cased
character and no lower case character. -/
def pyStrIsUpper (s : Str) : Bool :=
  s.any pyIsCased && s.all (fun c => !pyIsLower c)

/-- Helper for `pySplitWs`: `cur` is the word being accumulated, reversed. -/
def pySplitWsAux (cur : Str) : Str → List Str
  | [] => if cur.isEmpty then [] else [cur.reverse]
  | c :: t =>
    if pyIsSpace c then
      if cur.isEmpty then pySplitWsAux [] t
      else cur.reverse :: pySplitWsAux [] t
    else pySplitWsAux (c :: cur) t

/-- `str.split()`: split on runs of whitespace, dropping empty pieces. -/
def pySplitWs (s : Str) : List Str := pySplitWsAux [] s

/-! ### clean_unicode (src/main.py lines 13-103) -/

/-- The replacement table of `clean_unicode`: every key is one code point,
every value is a pure ASCII string. -/
def replacements : List (Char × Str) :=
  [ ('‘', ['\'']), ('’', ['\'']),
    ('“', ['"']), ('”', ['"']),
    ('‚', ['\'']), ('‛', ['\'']),
    ('„', ['"']), ('‟', ['"']),
    ('‹', ['<']), ('›', ['>']),
    ('«', ['<', '<']), ('»', ['>', '>']),
    ('‐', ['-']), ('‑', ['-']),
    ('‒', ['-']), ('–', ['-']),
    ('—', ['-', '-']), ('―', ['-', '-']),
    ('−', ['-']),
    (' ', [' ']),
    (' ', [' ']), (' ', [' ']), (' ', [' ']),
    (' ', [' ']), (' ', [' ']), (' ', [' ']),
    (' ', [' ']), (' ', [' ']), (' ', [' ']),
    (' ', [' ']), (' ', [' ']), ('​', []),
    ('…', ['.', '.', '.']),
    ('•', ['-']),
    ('‣', ['-']),
    ('⁃', ['-']),
    ('●', ['-']),
    ('◦', ['-']),
    ('∙', ['*']),
    ('▪', ['-']),
    ('▫', ['-']),
    ('ʼ', ['\'']),
    ('′', ['\'']),
    ('″', ['\'', '\'']),
    ('©', ['(', 'c', ')']),
    ('®', ['(', 'R', ')']),
    ('™', ['(', 'T', 'M', ')']),
    ('°', [' ', 'd', 'e', 'g']),
    ('±', ['+', '/', '-']),
    ('×', ['x']),
    ('÷', ['/']),
    ('¼', ['1', '/', '4']), ('½', ['1', '/', '2']), ('¾', ['3', '/', '4']),
    ('⅓', ['1', '/', '3']), ('⅔', ['2', '/', '3']),
    ('←', ['<', '-']), ('↑', ['^']), ('→', ['-', '>']), ('↓', ['v']),
    ('↔', ['<', '-', '>']), ('⇒', ['=', '>']), ('⇔', ['<', '=', '>']) ]

/-- `text.replace(old, new)` for a one-character `old`. -/
def replChar (old : Char) (new : Str) (s : Str) : Str :=
  (s.map (fun c => if c = old then new else [c])).flatten

/-- The `for old, new in replacements.items(): text = text.replace(old, new)`
loop of `clean_unicode`. -/
def applyReplacements (s : Str) : Str :=
  replacements.foldl (fun acc p => replChar p.1 p.2 acc) s

/-- The emoji / pictograph code point ranges removed by `clean_unicode`. -/
def emojiRanges : List (Nat × Nat) :=
  [ (0x1F600, 0x1F64F), (0x1F300, 0x1F5FF), (0x1F680, 0x1F6FF),
    (0x1F1E0, 0x1F1FF), (0x1F900, 0x1F9FF), (0x2600, 0x27BF),
    (0x1F200, 0x1F2FF), (0x1F000, 0x1F02F), (0x1F0A0, 0x1F0FF) ]

/-- Membership in one of the emoji ranges. -/
def isEmoji (c : Char) : Bool :=
  emojiRanges.any (fun r => r.1 ≤ c.toNat && c.toNat ≤ r.2)

/-- `clean_unicode` (src/main.py lines 13-103): replacement table, emoji
removal, then the final filter keeping code points below 128 plus
newline/tab/carriage return. -/
def clean_unicode (s : Str) : Str :=
  ((applyReplacements s).filter (fun c => !isEmoji c)).filter
    (fun c => decide (c.toNat < 128) || c = '\n' || c = '\t' || c = '\r')

/-! ### format_toc_line (src/main.py lines 139-184) -/

/-- The roman numeral character class `[ivxlcdm]` with `re.IGNORECASE`. -/
def pyIsRoman (c : Char) : Bool :=
  c = 'i' || c = 'v' || c = 'x' || c = 'l' || c = 'c' || c = 'd' || c = 'm' ||
  c = 'I' || c = 'V' || c = 'X' || c = 'L' || c = 'C' || c = 'D' || c = 'M'

/-- Tail matcher for `(\.{2,})(LOC+)\s*$`: a run of at least two periods,
then a nonempty run of locator characters, then only whitespace.  Both runs
are forced maximal, since backtracking them would put a period (resp. a
locator character) where the next sub-pattern cannot match it. -/
def dotTail (isLoc : Char → Bool) (rest : Str) : Option Str :=
  let dots := rest.takeWhile (fun c => c = '.')
  let afterDots := rest.dropWhile (fun c => c = '.')
  let loc := afterDots.takeWhile isLoc
  let afterLoc := afterDots.dropWhile isLoc
  if 2 ≤ dots.length && !loc.isEmpty && afterLoc.all pyIsSpace then some loc
  else none

/-- Tail matcher for `\s+(LOC+)\s*$`: a nonempty run of whitespace, a
nonempty run of locator characters, then only whitespace. -/
def wsTail (isLoc : Char → Bool) (rest : Str) : Option Str :=
  let ws := rest.takeWhile pyIsSpace
  let afterWs := rest.dropWhile pyIsSpace
  let loc := afterWs.takeWhile isLoc
  let afterLoc := afterWs.dropWhile isLoc
  if !ws.isEmpty && !loc.isEmpty && afterLoc.all pyIsSpace then some loc
  else none

/-- The lazy group `^(.+?)` of the `format_toc_line` regexes: try the
shortest nonempty prefix first (every prefix character must be matched by
`.`, which excludes newline), and hand the remainder to the tail matcher.
Returns the prefix (group 1) and the locator group on success. -/
def reScan (tm : Str → Option Str) (pre : Str) : Str → Option (Str × Str)
  | [] => none
  | c :: rest =>
    if c = '\n' then none
    else
      match tm rest with
      | some loc => some (pre ++ [c], loc)
      | none => reScan tm (pre ++ [c]) rest

/-- `re.match(r'^P+$', s)`: the whole string is a nonempty run of `P`
characters, where `$` also matches just before one final newline. -/
def fullMatchRun (p : Char → Bool) (s : Str) : Bool :=
  (decide (s ≠ []) && s.all p) ||
  (s.getLast? = some '\n' && decide (s.dropLast ≠ []) && s.dropLast.all p)

/-- Build `f"{page_num} ... {text}"` with both groups stripped. -/
def mkTocOut (page text : Str) : Str :=
  pyStrip page ++ ' ' :: '.' :: '.' :: '.' :: ' ' :: pyStrip text

/-- `format_toc_line` (src/main.py lines 139-184): move the page locator of
a TOC line to the front, trying six patterns in priority order.  For
patterns 3 and 4 a match whose locator is too long falls through to the
next pattern, exactly as in the source. -/
def format_toc_line (line0 : Str) : Str :=
  let line := pyStrip line0
  match reScan (dotTail pyIsDigit) [] line with
  | some (text, page) => mkTocOut page text
  | none =>
  match reScan (dotTail pyIsRoman) [] line with
  | some (text, page) => mkTocOut page text
  | none =>
  match
    (match reScan (wsTail pyIsDigit) [] line with
     | some (text, page) =>
       if page.length ≤ 4 then some (mkTocOut page text) else none
     | none => none) with
  | some r => r
  | none =>
  match
    (match reScan (wsTail pyIsRoman) [] line with
     | some (text, page) =>
       if page.length ≤ 5 then some (mkTocOut page text) else none
     | none => none) with
  | some r => r
  | none =>
  if fullMatchRun pyIsDigit line && decide (line.length ≤ 4) then
    line ++ [' ', '.', '.', '.']
  else if fullMatchRun pyIsRoman line && decide (line.length ≤ 5) then
    line ++ [' ', '.', '.', '.']
  else line

/-! ### is_toc_page (src/main.py lines 187-197) -/

/-- A line counted by `dot_lines`: `'.....' in line or '......' in line`. -/
def dotLeaderLine (l : Str) : Bool :=
  containsSub (List.replicate 5 '.') l || containsSub (List.replicate 6 '.') l

/-- A line counted by `number_heavy`: `re.search(r'\d+\s*$', line.strip())`.
After stripping, a match exists exactly when the line, with any trailing
whitespace removed, ends in a digit. -/
def trailNumberLine (l : Str) : Bool :=
  match (pyStrip l).reverse.dropWhile pyIsSpace with
  | c :: _ => pyIsDigit c
  | [] => false

/-- `is_toc_page` (src/main.py lines 187-197).  The float test
`x / total > 0.3` is modelled by the exact comparison `10 * x > 3 * total`. -/
def is_toc_page (text : Str) : Bool :=
  let lines := splitNl text
  let dot_lines := lines.countP dotLeaderLine
  let number_heavy := lines.countP trailNumberLine
  let total_lines := lines.countP (fun l => !(pyStrip l).isEmpty)
  if 0 < total_lines then
    decide (10 * dot_lines > 3 * total_lines) ||
    decide (10 * number_heavy > 3 * total_lines)
  else false

/-! ### Claim C3: the TOC page criterion, stated from the spec's words -/

/-- Modelled from the spec (claim C3): a line containing a dotted leader of
four or more consecutive periods. -/
def specDotted4 (l : Str) : Bool := containsSub (List.replicate 4 '.') l

/-- A line containing a dotted leader of five or more consecutive periods
(what the code actually tests for). -/
def specDotted5 (l : Str) : Bool := containsSub (List.replicate 5 '.') l

/-- Modelled from the spec (claim C3, with "line" read as the stripped line
of §3): a line ending in a run of digits. -/
def specEndsDigits (l : Str) : Bool :=
  match (pyStrip l).getLast? with
  | some c => pyIsDigit c
  | none => false

/-- A non-blank line. -/
def specNonBlank (l : Str) : Bool := !(pyStrip l).isEmpty

/-- Modelled from the spec (claim C3): more than 0.3 of the non-blank lines
contain a dotted leader, or more than 0.3 of them end in a run of digits
(exact rational comparison). -/
def specTocCriterion (dotted : Str → Bool) (text : Str) : Bool :=
  let nb := (splitNl text).filter specNonBlank
  decide (10 * nb.countP dotted > 3 * nb.length) ||
  decide (10 * nb.countP specEndsDigits > 3 * nb.length)

/-! ### detect_header_level (src/main.py lines 200-237) -/

/-- Python truthiness of an optional string: `None` and `""` are falsy. -/
def optTruthy : Option Str → Bool
  | none => false
  | some s => !s.isEmpty

/-- `str.endswith(t)` for one-character suffixes collected in a tuple. -/
def endsWithAny (s : Str) (cs : List Char) : Bool :=
  match s.getLast? with
  | some c => cs.contains c
  | none => false

/-- `str.startswith(t)` for one-character prefixes collected in a tuple. -/
def startsWithAny (s : Str) (cs : List Char) : Bool :=
  match s.head? with
  | some c => cs.contains c
  | none => false

/-- The closed-class continuation words of `detect_header_level`. -/
def contWords : List Str :=
  ["and".data, "or".data, "but".data, "the".data, "a".data, "an".data]

instance : DecidableEq (Except Unit (Option Nat)) := fun a b =>
  match a, b with
  | .error u, .error v => by
    cases u; cases v; exact isTrue rfl
  | .error _, .ok _ => isFalse (by intro h; cases h)
  | .ok _, .error _ => isFalse (by intro h; cases h)
  | .ok a, .ok b =>
    match decEq a b with
    | isTrue h => isTrue (by rw [h])
    | isFalse h => isFalse (by intro he; cases he; exact h rfl)

/-- The continuation test of `detect_header_level` (src/main.py line 223):
`if prev_line and (prev_line.endswith(('-', ',')) or
prev_line.split()[-1].lower() in [...])`.  `some r` means the test decided
the call's outcome (`r` is `ok none`, or `error` for the `IndexError` that
`[][-1]` raises when `prev_line` is nonempty pure whitespace); `none` means
the test fails and the remaining heading rules run. -/
def prevCheck (prev_line : Option Str) : Option (Except Unit (Option Nat)) :=
  if optTruthy prev_line then
    if endsWithAny (prev_line.getD []) ['-', ','] then
      some (Except.ok (none : Option Nat))
    else
      match (pySplitWs (prev_line.getD [])).getLast? with
      | none => some (Except.error ())
      | some w =>
        if contWords.contains (w.map pyToLower) then
          some (Except.ok (none : Option Nat))
        else none
  else none

/-- `detect_header_level` (src/main.py lines 200-237).  The result is
`Except Unit (Option Nat)`: the `error` case models the `IndexError`
raised by `prev_line.split()[-1]` when `prev_line` is a nonempty string of
only whitespace; every other path returns a definite `Option Nat`. -/
def detect_header_level (line0 : Str) (prev_line : Option Str) :
    Except Unit (Option Nat) :=
  let line := pyStrip line0
  if line.isEmpty || decide (line.length < 3) then Except.ok none
  else if startsWithAny line ['-', '*', '•', '●'] then Except.ok none
  else if decide (line.length > 80) && endsWithAny line ['.', '!', '?'] then
    Except.ok none
  else if ['#', '#', '#'].isPrefixOf line then Except.ok (some 3)
  else if optTruthy prev_line &&
      (match line.head? with | some c => pyIsLower c | none => false) then
    Except.ok none
  else
    match prevCheck prev_line with
    | some r => r
    | none =>
      if pyStrIsUpper line && decide (3 < line.length) &&
          decide (line.length < 60) && decide (2 ≤ (pySplitWs line).length) then
        Except.ok (some 2)
      else if decide (2 ≤ (pySplitWs line).length) &&
          decide ((pySplitWs line).length ≤ 12) &&
          decide (line.length < 80) then
        if decide (10 * (pySplitWs line).countP (fun w =>
              match w.head? with | some c => pyIsUpper c | none => false) ≥
            7 * (pySplitWs line).length) &&
            !endsWithAny line ['.', '!', '?', ','] then
          Except.ok (some 3)
        else Except.ok none
      else Except.ok none

/-! ### is_bullet_or_list (src/main.py lines 240-247) -/

/-- The two list kinds returned by `is_bullet_or_list`. -/
inductive ListKind where
  | bullet : ListKind
  | numbered : ListKind
deriving DecidableEq

/-- `is_bullet_or_list` (src/main.py lines 240-247).  The numbered test is
`re.match(r'^\d+[\.\)]\s', line)`: a nonempty digit run, a period or a
closing parenthesis, then one whitespace character. -/
def is_bullet_or_list (line0 : Str) : Option ListKind :=
  let line := pyStrip line0
  if startsWithAny line ['•', '●', '◦', '▪', '-', '*'] then some ListKind.bullet
  else if !(line.takeWhile pyIsDigit).isEmpty then
    match line.dropWhile pyIsDigit with
    | p :: s :: _ =>
      if (p = '.' || p = ')') && pyIsSpace s then some ListKind.numbered else none
    | _ => none
  else none

/-! ### join_with_dehyphenation (src/main.py lines 250-262) -/

/-- One step of the dehyphenation loop: merge into the previous fragment if
it ends with a hyphen, otherwise append. -/
def dehyphStep (acc : List Str) (line : Str) : List Str :=
  match acc.getLast? with
  | some l =>
    if l.getLast? = some '-' then acc.dropLast ++ [l.dropLast ++ line]
    else acc ++ [line]
  | none => acc ++ [line]

/-- `join_with_dehyphenation` (src/main.py lines 250-262). -/
def join_with_dehyphenation (lines : List Str) : Str :=
  if lines.isEmpty then []
  else joinSp (lines.foldl dehyphStep [])

/-! ### identify_headers_footers (src/main.py lines 119-136) -/

/-- The first and last non-blank (stripped) line of a page, recorded only
when the page has at least two such lines. -/
def pageFirstLast (page : Str) : List Str :=
  let lines := ((splitNl page).map pyStrip).filter (fun l => !l.isEmpty)
  if 2 ≤ lines.length then [lines.headD [], lines.getLastD []] else []

/-- The occurrence count of a line in the first/last tally over all pages. -/
def noiseCount (pages : List Str) (l : Str) : Nat :=
  ((pages.map pageFirstLast).flatten).count l

/-- `identify_headers_footers` (src/main.py lines 119-136), modelled as the
membership predicate of the returned set: a line is noise when its tally
is at least 10 and its length is under 60. -/
def identify_headers_footers (pages : List Str) (l : Str) : Bool :=
  decide (10 ≤ noiseCount pages l) && decide (l.length < 60)

/-! ### convert_to_markdown (src/main.py lines 265-419) -/

/-- Python truthiness of `detect_header_level`'s result (`None` and `0` are
falsy; the function only ever returns 2 or 3). -/
def truthyLevel : Option Nat → Bool
  | some n => decide (n ≠ 0)
  | none => false

/-- `detect_header_level` as called inside `convert_to_markdown`.  Every
`prev` value the converter passes is `None` or a stripped line (empty or
beginning with a non-whitespace character), so by
`detect_ok_of_prev_ok` the error case is unreachable there; it is mapped
to "no heading". -/
def dhl (line : Str) (prev : Option Str) : Option Nat :=
  match detect_header_level line prev with
  | Except.ok r => r
  | Except.error _ => none

/-- `re.sub(r'^[•●◦▪\-\*]\s*', '- ', line)`: normalize a leading bullet
glyph and the whitespace after it to `"- "`. -/
def cleanBullet : Str → Str
  | c :: rest =>
    if c = '•' || c = '●' || c = '◦' || c = '▪' || c = '-' || c = '*' then
      '-' :: ' ' :: rest.dropWhile pyIsSpace
    else c :: rest
  | [] => []

/-- `re.sub(r'^#{1,3}\s*', '', line)`: strip up to three leading number
signs and the whitespace after them. -/
def stripHashes (line : Str) : Str :=
  match line with
  | '#' :: _ =>
    (line.drop (min (line.takeWhile (fun c => c = '#')).length 3)).dropWhile pyIsSpace
  | _ => line

/-- The converter's mutable state: emitted blocks and the two buffers. -/
structure ConvState where
  markdown_lines : List Str
  current_paragraph : List Str
  current_list_item : List Str
  in_list : Bool

/-- The inner absorption loop of the list branch (src/main.py lines
364-383).  `prevRaw` is the raw line before the current one (the loop is
always entered with the list-start line already consumed, so the source's
`i > 0` guard always holds).  Returns the unconsumed suffix of the page's
lines together with the grown list-item buffer. -/
def absorb (noise : Str → Bool) : Str → List Str → List Str → List Str × List Str
  | _, item, [] => ([], item)
  | prevRaw, item, cur :: rest =>
    let next_line := pyStrip cur
    if next_line.isEmpty then (cur :: rest, item)
    else if noise next_line then absorb noise cur item rest
    else if (is_bullet_or_list next_line).isSome ||
        truthyLevel (dhl next_line (some (pyStrip prevRaw))) then
      (cur :: rest, item)
    else if endsWithAny next_line ['.', '!', '?'] && !rest.isEmpty then
      if (pyStrip (rest.headD [])).isEmpty ||
          (is_bullet_or_list (pyStrip (rest.headD []))).isSome ||
          truthyLevel (dhl (pyStrip (rest.headD [])) (some next_line)) then
        (rest, item ++ [next_line])
      else absorb noise cur (item ++ [next_line]) rest
    else absorb noise cur (item ++ [next_line]) rest

/-- The flush of the list-item buffer: emit its dehyphenated join. -/
def flushList (md : List Str) (item : List Str) : List Str :=
  md ++ (if item.isEmpty then [] else [join_with_dehyphenation item])

/-- The flush of the paragraph buffer: emit its dehyphenated join followed
by a blank separator. -/
def flushPara (md : List Str) (para : List Str) : List Str :=
  md ++ (if para.isEmpty then [] else [join_with_dehyphenation para, []])

/-- The normal (non-TOC) per-line loop of `convert_to_markdown`
(src/main.py lines 298-405), processing the remaining lines of one page.
The loop consumes at least one line per iteration, so any `fuel` of at
least the number of remaining lines makes the cut-off branch unreachable;
callers pass the page's full line count. -/
def normalLoop (noise : Str → Bool) : Nat → Option Str → ConvState → List Str → ConvState
  | 0, _, st, _ => st
  | _ + 1, _, st, [] => st
  | fuel + 1, prev, st, cur :: rest =>
    let line := pyStrip cur
    if noise line then normalLoop noise fuel (some line) st rest
    else if line.isEmpty then
      normalLoop noise fuel none
        { markdown_lines := flushPara (flushList st.markdown_lines st.current_list_item)
            st.current_paragraph,
          current_paragraph := [], current_list_item := [], in_list := false } rest
    else if truthyLevel (dhl line prev) then
      normalLoop noise fuel (some line)
        { markdown_lines :=
            flushPara (flushList st.markdown_lines st.current_list_item)
              st.current_paragraph ++
            [List.replicate ((dhl line prev).getD 0) '#' ++ ' ' :: stripHashes line, []],
          current_paragraph := [], current_list_item := [], in_list := false } rest
    else
      match is_bullet_or_list line with
      | some k =>
        let clean_line := if k = ListKind.bullet then cleanBullet line else line
        match absorb noise cur [clean_line] rest with
        | (rest', item') =>
          normalLoop noise fuel (some line)
            { markdown_lines :=
                flushPara (flushList st.markdown_lines st.current_list_item)
                  st.current_paragraph,
              current_paragraph := [], current_list_item := item', in_list := true } rest'
      | none =>
        let md1 := if st.in_list then flushList st.markdown_lines st.current_list_item
          else st.markdown_lines
        let item1 : List Str := if st.in_list then [] else st.current_list_item
        if st.current_paragraph.isEmpty then
          normalLoop noise fuel (some line)
            { markdown_lines := md1, current_paragraph := [line],
              current_list_item := item1, in_list := false } rest
        else if endsWithAny line ['-'] ||
            !endsWithAny (st.current_paragraph.getLastD []) ['.', '!', '?', ':', '"'] then
          normalLoop noise fuel (some line)
            { markdown_lines := md1,
              current_paragraph := st.current_paragraph ++ [line],
              current_list_item := item1, in_list := false } rest
        else
          normalLoop noise fuel (some line)
            { markdown_lines := md1 ++ [join_with_dehyphenation st.current_paragraph, []],
              current_paragraph := [line], current_list_item := item1,
              in_list := false } rest

/-- The buffer flush at the top of the TOC branch (src/main.py lines
277-283): paragraph first (without a blank separator), then list item. -/
def tocFlush (st : ConvState) : ConvState :=
  { markdown_lines :=
      st.markdown_lines ++
      (if st.current_paragraph.isEmpty then []
        else [join_with_dehyphenation st.current_paragraph]) ++
      (if st.current_list_item.isEmpty then []
        else [join_with_dehyphenation st.current_list_item]),
    current_paragraph := [], current_list_item := [],
    in_list := if st.current_list_item.isEmpty then st.in_list else false }

/-- `not any('Table of Contents' in line for line in markdown_lines[-5:] if line)`. -/
def tocHeaderNeeded (md : List Str) : Bool :=
  !((md.drop (md.length - 5)).any
    (fun l => !l.isEmpty && containsSub "Table of Contents".data l))

/-- The per-line emission of the TOC branch (src/main.py lines 289-293):
each stripped, non-blank, non-noise line of the page is emitted through
`format_toc_line`. -/
def tocEntries (noise : Str → Bool) (text : Str) : List Str :=
  ((splitNl text).map pyStrip).filterMap (fun l =>
    if !l.isEmpty && !noise l then some (format_toc_line l) else none)

/-- The TOC branch of `convert_to_markdown` (src/main.py lines 276-296). -/
def processPageToc (noise : Str → Bool) (text : Str) (st : ConvState) : ConvState :=
  let st1 := tocFlush st
  let md2 := if tocHeaderNeeded st1.markdown_lines then
      st1.markdown_lines ++ [[], "## Table of Contents\n".data]
    else st1.markdown_lines
  { st1 with markdown_lines := md2 ++ tocEntries noise text ++ [[]] }

/-- The per-page body of `convert_to_markdown`'s main loop (src/main.py
lines 272-405): clean the page, take the TOC branch for an early page that
looks like a TOC, otherwise run the normal loop over its lines. -/
def processPage (noise : Str → Bool) (st : ConvState) (idx : Nat) (text0 : Str) :
    ConvState :=
  let text := clean_unicode text0
  if decide (idx < 20) && is_toc_page text then processPageToc noise text st
  else normalLoop noise (splitNl text).length none st (splitNl text)

/-- `re.sub(r'\n{3,}', '\n\n', ...)`: emit a pending newline run, collapsed
to two newlines when it has three or more. -/
def emitNlRun (n : Nat) : Str :=
  if 3 ≤ n then ['\n', '\n'] else List.replicate n '\n'

/-- Helper for `collapseNl`: `run` is the number of pending newlines. -/
def collapseNlAux : Nat → Str → Str
  | run, [] => emitNlRun run
  | run, c :: t =>
    if c = '\n' then collapseNlAux (run + 1) t
    else emitNlRun run ++ c :: collapseNlAux 0 t

/-- `re.sub(r'\n{3,}', '\n\n', s)`. -/
def collapseNl (s : Str) : Str := collapseNlAux 0 s

/-- The punctuation class of `re.sub(r'\s+([.,!?;:])', r'\1', s)`. -/
def puncts : Str := ['.', ',', '!', '?', ';', ':']

/-- Helper for `subPunct`: `ws` is the pending whitespace run; it is
dropped when the next character is punctuation, emitted otherwise. -/
def subPunctAux : Str → Str → Str
  | ws, [] => ws
  | ws, c :: t =>
    if pyIsSpace c then subPunctAux (ws ++ [c]) t
    else if puncts.contains c && !ws.isEmpty then c :: subPunctAux [] t
    else ws ++ c :: subPunctAux [] t

/-- `re.sub(r'\s+([.,!?;:])', r'\1', s)`. -/
def subPunct (s : Str) : Str := subPunctAux [] s

/-- The final cleanup of `convert_to_markdown` (src/main.py lines 413-417):
join the blocks, collapse newline runs, delete whitespace before
punctuation, and right-strip every line. -/
def finalCleanup (md : List Str) : Str :=
  joinNl ((splitNl (subPunct (collapseNl (joinNl md)))).map pyRStrip)

/-- `convert_to_markdown` (src/main.py lines 265-419), with the
header/footer set passed as a membership predicate. -/
def convert_to_markdown (pages : List Str) (noise : Str → Bool) : Str :=
  let st := pages.enum.foldl (fun s p => processPage noise s p.1 p.2)
    ⟨[], [], [], false⟩
  finalCleanup (flushList (flushList st.markdown_lines st.current_list_item)
    st.current_paragraph)

/-- The pages of the C1 counterexample: ten pages whose first line is
`"A B"` (making it a detected header), and one page whose content lines
`"A"` and `"B"` reflow into the paragraph `"A B"`. -/
def c1pages : List Str := List.replicate 10 "A B\ny".data ++ ["A\nB".data]

/-- The joint accumulator invariant of `convert_to_markdown`: a nonempty
list-item buffer implies the `in_list` flag, and the paragraph buffer and
the list-item buffer are never both nonempty. -/
def StInv (st : ConvState) : Prop :=
  (st.current_list_item ≠ [] → st.in_list = true) ∧
  (st.current_paragraph = [] ∨ st.current_list_item = [])

/-! ### Line structure lemmas for the final cleanup (claim C6) -/

/-- A well-formed output line: empty, or containing a non-whitespace
character.  (A nonempty all-whitespace line would right-strip to a blank
line.) -/
def LineOk (l : Str) : Prop := l = [] ∨ ∃ c ∈ l, pyIsSpace c = false

/-- Every `'\n'`-separated line of the string is well formed. -/
def LinesOk (s : Str) : Prop := ∀ l ∈ splitNl s, LineOk l

/-- A well-formed buffer fragment: it contains a non-whitespace character
and no newline. -/
def FragOk (f : Str) : Prop := (∃ c ∈ f, pyIsSpace c = false) ∧ '\n' ∉ f

/-- Well-formedness of the emitted block list: every entry has well-formed
lines, and a nonempty list contains at least one non-whitespace character
(the converter never emits only blank separators). -/
def MdOk (md : List Str) : Prop :=
  (∀ e ∈ md, LinesOk e) ∧
  (md = [] ∨ ∃ e ∈ md, ∃ c ∈ e, pyIsSpace c = false)

/-- Well-formedness of the whole accumulator state. -/
def GoodSt (st : ConvState) : Prop :=
  MdOk st.markdown_lines ∧
  (∀ f ∈ st.current_paragraph, FragOk f) ∧
  (∀ f ∈ st.current_list_item, FragOk f)

/-- No three consecutive newline characters occur in the string (the
property `re.sub(r'\n{3,}', '\n\n', ...)` establishes). -/
def noTriple : Str → Bool
  | c1 :: c2 :: c3 :: t =>
    if c1 = '\n' && c2 = '\n' && c3 = '\n' then false
    else noTriple (c2 :: c3 :: t)
  | _ => true

/-- The length of the leading newline run. -/
def leadNl : Str → Nat
  | c :: t => if c = '\n' then leadNl t + 1 else 0
  | [] => 0

theorem clean_unicode_ascii {s : Str} {c : Char} (h : c ∈ clean_unicode s) :
    c.toNat < 128 := by
  unfold clean_unicode at h
  simp only [List.mem_filter] at h
  rcases h with ⟨-, h⟩
  simp only [Bool.or_eq_true, decide_eq_true_eq, decide_eq_true] at h
  rcases h with ((h | h) | h) | h
  · exact h
  · subst h; decide
  · subst h; decide
  · subst h; decide

theorem replChar_of_not_mem {old : Char} {new : Str} {s : Str}
    (h : ∀ c ∈ s, c ≠ old) : replChar old new s = s := by
  induction s with
  | nil => rfl
  | cons a t ih =>
    have ha : a ≠ old := h a (by simp)
    simp only [replChar, List.map_cons, List.flatten, if_neg ha]
    have := ih (fun c hc => h c (by simp [hc]))
    simp only [replChar] at this
    simp [this]

theorem replacements_keys_big : ∀ p ∈ replacements, 128 ≤ p.1.toNat := by decide

theorem applyReplacements_ascii {s : Str} (h : ∀ c ∈ s, c.toNat < 128) :
    applyReplacements s = s := by
  unfold applyReplacements
  have general : ∀ (ps : List (Char × Str)), (∀ p ∈ ps, 128 ≤ p.1.toNat) →
      ps.foldl (fun acc p => replChar p.1 p.2 acc) s = s := by
    intro ps
    induction ps with
    | nil => intro _; rfl
    | cons q qs ih =>
      intro hps
      have hq : 128 ≤ q.1.toNat := hps q (by simp)
      have hrepl : replChar q.1 q.2 s = s := by
        apply replChar_of_not_mem
        intro c hc hcq
        have := h c hc
        rw [hcq] at this
        omega
      simp only [List.foldl_cons, hrepl]
      exact ih (fun p hp => hps p (by simp [hp]))
  exact general replacements replacements_keys_big

theorem emojiRanges_big : ∀ r ∈ emojiRanges, 0x2600 ≤ r.1 := by decide

theorem isEmoji_false_of_ascii {c : Char} (h : c.toNat < 128) :
    isEmoji c = false := by
  unfold isEmoji
  rw [List.any_eq_false]
  intro r hr
  have := emojiRanges_big r hr
  simp only [Bool.and_eq_true, decide_eq_true_eq, not_and]
  intro h1
  omega

theorem clean_unicode_of_ascii {s : Str} (h : ∀ c ∈ s, c.toNat < 128) :
    clean_unicode s = s := by
  unfold clean_unicode
  rw [applyReplacements_ascii h]
  have h2 : s.filter (fun c => !isEmoji c) = s :=
    List.filter_eq_self.2 (by
      intro c hc
      simp [isEmoji_false_of_ascii (h c hc)])
  rw [h2]
  exact List.filter_eq_self.2 (by
    intro c hc
    simp [h c hc])

theorem replacements_no_special : ∀ p ∈ replacements,
    '\n' ∉ p.2 ∧ '\t' ∉ p.2 ∧ '\r' ∉ p.2 := by decide

theorem clean_unicode_preserves_special {s : Str} {c : Char}
    (hc : c = '\n' ∨ c = '\t' ∨ c = '\r') (hmem : c ∈ s) :
    c ∈ clean_unicode s := by
  have hckey : ∀ p ∈ replacements, c ≠ p.1 := by
    intro p hp hcp
    have := replacements_keys_big p hp
    rw [← hcp] at this
    rcases hc with h | h | h <;> (subst h; exact absurd this (by decide))
  have h1 : c ∈ applyReplacements s := by
    unfold applyReplacements
    have general : ∀ (ps : List (Char × Str)) (t : Str), c ∈ t →
        (∀ p ∈ ps, c ≠ p.1) →
        c ∈ ps.foldl (fun acc p => replChar p.1 p.2 acc) t := by
      intro ps
      induction ps with
      | nil => intro t ht _; exact ht
      | cons q qs ih =>
        intro t ht hkeys
        simp only [List.foldl_cons]
        apply ih
        · unfold replChar
          rw [List.mem_flatten]
          refine ⟨[c], ?_, by simp⟩
          rw [List.mem_map]
          exact ⟨c, ht, by rw [if_neg (hkeys q (by simp))]⟩
        · intro p hp; exact hkeys p (by simp [hp])
    exact general replacements s hmem hckey
  have hsmall : c.toNat < 128 := by
    rcases hc with h | h | h <;> (subst h; decide)
  unfold clean_unicode
  rw [List.mem_filter, List.mem_filter]
  refine ⟨⟨h1, ?_⟩, ?_⟩
  · simp [isEmoji_false_of_ascii hsmall]
  · simp [hsmall]

/-- C5: `clean_unicode` is idempotent, its output only contains code points
below 128, and newline, tab and carriage return are preserved. -/
theorem clean_unicode_idempotent_ascii :
    (∀ s : Str, clean_unicode (clean_unicode s) = clean_unicode s) ∧
    (∀ s : Str, ∀ c ∈ clean_unicode s, c.toNat < 128) ∧
    (∀ s : Str, ∀ c ∈ s, (c = '\n' ∨ c = '\t' ∨ c = '\r') →
      c ∈ clean_unicode s) := by
  refine ⟨?_, ?_, ?_⟩
  · intro s
    exact clean_unicode_of_ascii (fun c hc => clean_unicode_ascii hc)
  · intro s c hc
    exact clean_unicode_ascii hc
  · intro s c hc hspec
    exact clean_unicode_preserves_special hspec hc

/-- C8: the three `format_toc_line` examples from the specification. -/
theorem format_toc_line_examples :
    format_toc_line "Chapter One......12".data = "12 ... Chapter One".data ∧
    format_toc_line "Appendix B  45".data = "45 ... Appendix B".data ∧
    format_toc_line "Preface  iii".data = "iii ... Preface".data := by
  refine ⟨?_, ?_, ?_⟩ <;> decide

/-- C10: a page whose lines are all blank is never classified as TOC. -/
theorem is_toc_page_all_blank_false (text : Str)
    (h : ∀ l ∈ splitNl text, pyStrip l = []) : is_toc_page text = false := by
  unfold is_toc_page
  have htot : (splitNl text).countP (fun l => !(pyStrip l).isEmpty) = 0 := by
    rw [List.countP_eq_zero]
    intro l hl
    simp [h l hl]
  simp [htot]

theorem is_toc_page_all_blank_false_witness :
    (∀ l ∈ splitNl "  \n\t\n ".data, pyStrip l = []) ∧
    is_toc_page "  \n\t\n ".data = false :=
  ⟨by decide, is_toc_page_all_blank_false _ (by decide)⟩

theorem containsSub_iff {pat s : Str} : containsSub pat s = true ↔ pat <:+: s := by
  unfold containsSub
  rw [List.any_eq_true]
  constructor
  · rintro ⟨t, ht, hp⟩
    rw [List.mem_tails] at ht
    exact List.infix_iff_prefix_suffix.2 ⟨_, List.isPrefixOf_iff_prefix.1 hp, ht⟩
  · intro h
    rcases List.infix_iff_prefix_suffix.1 h with ⟨t, hp, hs⟩
    exact ⟨t, (List.mem_tails _ _).2 hs, List.isPrefixOf_iff_prefix.2 hp⟩

theorem pyStrip_eq_nil_iff {l : Str} : pyStrip l = [] ↔ ∀ c ∈ l, pyIsSpace c := by
  unfold pyStrip
  rw [List.reverse_eq_nil_iff, List.dropWhile_eq_nil_iff]
  constructor
  · intro h c hc
    by_cases hsp : pyIsSpace c = true
    · exact hsp
    · have hmem : c ∈ l.dropWhile pyIsSpace := by
        have := List.takeWhile_append_dropWhile (p := pyIsSpace) (l := l)
        rw [← this] at hc
        rcases List.mem_append.1 hc with h1 | h1
        · exact absurd (List.mem_takeWhile_imp h1) hsp
        · exact h1
      exact h c (List.mem_reverse.2 hmem)
  · intro h c hc
    exact h c ((List.dropWhile_suffix pyIsSpace).sublist.subset (List.mem_reverse.1 hc))

theorem dropWhile_self_idem {p : Char → Bool} {l : Str} :
    (l.dropWhile p).dropWhile p = l.dropWhile p := by
  match h : l.dropWhile p with
  | [] => rfl
  | c :: t =>
    have hc : ¬p c := by
      have h0 : 0 < (l.dropWhile p).length := by rw [h]; simp
      have := List.dropWhile_get_zero_not p l h0
      simpa [h] using this
    simp [List.dropWhile_cons, hc]

theorem dotLeaderLine_eq_specDotted5 (l : Str) :
    dotLeaderLine l = specDotted5 l := by
  unfold dotLeaderLine specDotted5
  cases h6 : containsSub (List.replicate 6 '.') l with
  | false => simp [h6]
  | true =>
    have h5 : containsSub (List.replicate 5 '.') l = true := by
      rw [containsSub_iff] at h6 ⊢
      refine List.IsInfix.trans ?_ h6
      exact (List.prefix_iff_eq_take.2 (by decide)).isInfix
    have h5' : containsSub ['.', '.', '.', '.', '.'] l = true := by simpa using h5
    simp [h5', h6]

theorem trailNumberLine_eq_specEndsDigits (l : Str) :
    trailNumberLine l = specEndsDigits l := by
  unfold trailNumberLine specEndsDigits
  have hrev : (pyStrip l).reverse =
      (l.dropWhile pyIsSpace).reverse.dropWhile pyIsSpace := by
    unfold pyStrip
    rw [List.reverse_reverse]
  rw [hrev, dropWhile_self_idem]
  rw [← hrev, List.getLast?_eq_head?_reverse]
  cases h : (pyStrip l).reverse with
  | nil => simp [h]
  | cons c t => simp [h]

theorem specNonBlank_of_dotted5 {l : Str} (h : specDotted5 l = true) :
    specNonBlank l = true := by
  unfold specDotted5 at h
  unfold specNonBlank
  rw [containsSub_iff] at h
  have hdot : '.' ∈ l := h.mem (by decide)
  cases hem : (pyStrip l).isEmpty with
  | false => simp [hem]
  | true =>
    exfalso
    rw [List.isEmpty_iff] at hem
    have := pyStrip_eq_nil_iff.1 hem '.' hdot
    exact absurd this (by decide)

theorem specNonBlank_of_trailNumber {l : Str} (h : trailNumberLine l = true) :
    specNonBlank l = true := by
  unfold trailNumberLine at h
  unfold specNonBlank
  cases hem : (pyStrip l).isEmpty with
  | false => simp [hem]
  | true =>
    exfalso
    rw [List.isEmpty_iff] at hem
    rw [hem] at h
    simp at h

theorem countP_all_eq_countP_nonblank {p : Str → Bool}
    (himp : ∀ l, p l = true → specNonBlank l = true) (lines : List Str) :
    lines.countP p = (lines.filter specNonBlank).countP p := by
  rw [List.countP_filter]
  congr 1
  funext l
  by_cases h : p l = true
  · simp [h, himp l h]
  · simp [Bool.eq_false_iff.2 h]

/-- C3 counterexample: on the one-line page `"Intro....xyz"` the code
returns `False` although the line contains a four-period dotted leader, so
the claimed criterion (four or more periods) classifies it as TOC. -/
theorem is_toc_page_criterion4_counterexample :
    1 ≤ (splitNl "Intro....xyz".data).countP specNonBlank ∧
    ¬ (is_toc_page "Intro....xyz".data = specTocCriterion specDotted4 "Intro....xyz".data) := by
  constructor
  · decide
  · decide

/-- C3 (amended): for a page with at least one non-blank line,
`is_toc_page` returns `True` exactly when more than 0.3 of the non-blank
lines contain a dotted leader of FIVE or more consecutive periods, or more
than 0.3 of them end in a run of digits. -/
theorem is_toc_page_iff_criterion5 (text : Str)
    (h : 1 ≤ (splitNl text).countP specNonBlank) :
    is_toc_page text = specTocCriterion specDotted5 text := by
  unfold is_toc_page specTocCriterion
  dsimp only
  have hd : (splitNl text).countP dotLeaderLine =
      ((splitNl text).filter specNonBlank).countP specDotted5 := by
    rw [show dotLeaderLine = specDotted5 from funext dotLeaderLine_eq_specDotted5]
    exact countP_all_eq_countP_nonblank (fun l => specNonBlank_of_dotted5) _
  have hn : (splitNl text).countP trailNumberLine =
      ((splitNl text).filter specNonBlank).countP specEndsDigits := by
    rw [countP_all_eq_countP_nonblank (fun l => specNonBlank_of_trailNumber) _]
    congr 1
    funext l
    exact trailNumberLine_eq_specEndsDigits l
  have htot : (splitNl text).countP (fun l => !(pyStrip l).isEmpty) =
      ((splitNl text).filter specNonBlank).length := by
    rw [List.countP_eq_length_filter]
    rfl
  rw [hd, hn, htot]
  have hpos : 0 < ((splitNl text).filter specNonBlank).length := by
    rw [← List.countP_eq_length_filter]
    exact h
  simp only [if_pos hpos]

theorem is_toc_page_iff_criterion5_witness :
    1 ≤ (splitNl "A.......3\nplain".data).countP specNonBlank ∧
    is_toc_page "A.......3\nplain".data =
      specTocCriterion specDotted5 "A.......3\nplain".data :=
  ⟨by decide, is_toc_page_iff_criterion5 _ (by decide)⟩

/-- C2 counterexample: on the single all-caps word `"INTRODUCTION"` with no
previous line, the code returns no heading (the all-caps rule demands at
least two words), not level 2. -/
theorem detect_header_level_INTRODUCTION_not_2 :
    ¬ detect_header_level "INTRODUCTION".data none = Except.ok (some 2) := by
  decide

/-- C2 (amended): `detect_header_level("INTRODUCTION", None)` returns no
heading, because the all-caps-to-H2 rule requires at least two words; an
all-caps line of two words such as `"CHAPTER ONE"` does return level 2. -/
theorem detect_header_level_all_caps :
    detect_header_level "INTRODUCTION".data none = Except.ok none ∧
    detect_header_level "CHAPTER ONE".data none = Except.ok (some 2) := by
  constructor <;> decide

/-- C4 counterexample: `detect_header_level` is not total — with the
whitespace-only previous line `" "` and a line reaching the continuation
check, `prev_line.split()[-1]` raises `IndexError`. -/
theorem detect_header_level_raises :
    detect_header_level "ABC DEF".data (some " ".data) = Except.error () := by
  decide

theorem pySplitWsAux_ne_nil_of_cur {cur : Str} (hcur : cur ≠ []) :
    ∀ t : Str, pySplitWsAux cur t ≠ [] := by
  intro t
  induction t generalizing cur with
  | nil =>
    simp only [pySplitWsAux]
    rw [if_neg (by simpa [List.isEmpty_iff] using hcur)]
    simp
  | cons a t ih =>
    simp only [pySplitWsAux]
    split
    · rw [if_neg (by simpa [List.isEmpty_iff] using hcur)]
      simp
    · exact ih (by simp)

theorem pySplitWs_ne_nil {c : Char} (hns : pyIsSpace c = false) :
    ∀ {s : Str}, c ∈ s → pySplitWs s ≠ [] := by
  have aux : ∀ (s : Str) (cur : Str), c ∈ s → pySplitWsAux cur s ≠ [] := by
    intro s
    induction s with
    | nil => intro cur hc; simp at hc
    | cons a t ih =>
      intro cur hc
      simp only [pySplitWsAux]
      split
      · next hws =>
        rcases List.mem_cons.1 hc with h | h
        · subst h
          exact absurd hws (by simp [hns])
        · split
          · exact ih [] h
          · simp
      · exact pySplitWsAux_ne_nil_of_cur (by simp) t
  intro s hc
  exact aux s [] hc

theorem prevCheck_not_error (prev_line : Option Str)
    (h : ∀ s, prev_line = some s → s = [] ∨ ∃ c ∈ s, pyIsSpace c = false) :
    ∀ r, prevCheck prev_line = some r → ∃ v, r = Except.ok v := by
  intro r hr
  unfold prevCheck at hr
  cases hprev : prev_line with
  | none => rw [hprev] at hr; simp [optTruthy] at hr
  | some p =>
    rw [hprev] at hr
    cases hp : p.isEmpty with
    | true => rw [if_neg (by simp [optTruthy, hp])] at hr; cases hr
    | false =>
      rw [if_pos (by simp [optTruthy, hp])] at hr
      simp only [Option.getD_some] at hr
      rcases h p hprev with hnil | ⟨c, hc, hcs⟩
      · rw [hnil] at hp; cases hp
      · have hne : pySplitWs p ≠ [] := pySplitWs_ne_nil hcs hc
        by_cases hend : endsWithAny p ['-', ','] = true
        · rw [if_pos hend] at hr
          cases hr
          exact ⟨none, rfl⟩
        · rw [if_neg hend] at hr
          cases hlast : (pySplitWs p).getLast? with
          | none => exact absurd (List.getLast?_eq_none_iff.1 hlast) hne
          | some w =>
            rw [hlast] at hr
            dsimp only at hr
            by_cases hcw : contWords.contains (w.map pyToLower) = true
            · rw [if_pos hcw] at hr
              cases hr
              exact ⟨none, rfl⟩
            · rw [if_neg hcw] at hr
              cases hr

theorem detect_ok_of_prev_ok (line0 : Str) (prev_line : Option Str)
    (h : ∀ s, prev_line = some s → s = [] ∨ ∃ c ∈ s, pyIsSpace c = false) :
    ∃ r, detect_header_level line0 prev_line = Except.ok r := by
  unfold detect_header_level
  dsimp only
  cases hpc : prevCheck prev_line with
  | some r =>
    obtain ⟨v, hv⟩ := prevCheck_not_error prev_line h r hpc
    subst hv
    repeat' first | exact ⟨_, rfl⟩ | contradiction | split
  | none =>
    repeat' first | exact ⟨_, rfl⟩ | contradiction | split

/-- C4 counterexample companion / amended claim: `detect_header_level` is
total — never the modelled `IndexError` — whenever the previous line is
`None`, empty, or contains at least one non-whitespace character.  (The
other classification functions `is_bullet_or_list`, `is_toc_page`,
`format_toc_line` and `clean_unicode` are total Lean functions of this
embedding, with no error case to model.) -/
theorem detect_header_level_total_of_prev_ok (line0 : Str) (prev_line : Option Str)
    (h : ∀ s, prev_line = some s → s = [] ∨ ∃ c ∈ s, pyIsSpace c = false) :
    ∃ r, detect_header_level line0 prev_line = Except.ok r :=
  detect_ok_of_prev_ok line0 prev_line h

theorem detect_header_level_total_of_prev_ok_witness :
    ∃ r, detect_header_level "Chapter Two".data (some "ends with the".data) =
      Except.ok r :=
  detect_header_level_total_of_prev_ok _ _ (by
    intro s hs
    cases hs
    right
    exact ⟨'e', by decide, by decide⟩)

/-- C9: a page at index 20 or later never takes the TOC branch — it is
processed by the normal per-line loop even when `is_toc_page` holds for
its text. -/
theorem processPage_late_is_normal (noise : Str → Bool) (st : ConvState)
    (idx : Nat) (text0 : Str) (h : 20 ≤ idx) :
    processPage noise st idx text0 =
      normalLoop noise (splitNl (clean_unicode text0)).length none st
        (splitNl (clean_unicode text0)) := by
  unfold processPage
  have h20 : decide (idx < 20) = false := by
    simp only [decide_eq_false_iff_not]
    omega
  rw [if_neg (by simp [h20])]

theorem processPage_late_is_normal_witness :
    is_toc_page (clean_unicode "A.....1\nB.....2".data) = true ∧
    processPage (fun _ => false) ⟨[], [], [], false⟩ 20 "A.....1\nB.....2".data =
      normalLoop (fun _ => false)
        (splitNl (clean_unicode "A.....1\nB.....2".data)).length none
        ⟨[], [], [], false⟩ (splitNl (clean_unicode "A.....1\nB.....2".data)) :=
  ⟨by decide,
    processPage_late_is_normal (fun _ => false) ⟨[], [], [], false⟩ 20 _ (by decide)⟩

set_option maxRecDepth 8000 in
/-- C1 counterexample: `"A B"` is the first non-blank line of ten pages and
is three characters long, so it is in the noise set; yet the converted
output is exactly the string `"A B"`, reassembled from the last page's
separate lines `"A"` and `"B"`. -/
theorem noise_line_reappears_in_output :
    10 ≤ c1pages.countP (fun p => (pageFirstLast p).contains "A B".data) ∧
    (pyStrip "A B".data).length < 60 ∧
    identify_headers_footers c1pages "A B".data = true ∧
    convert_to_markdown c1pages (identify_headers_footers c1pages) = "A B".data :=
  ⟨by decide, by decide, by decide, by decide⟩

/-- C1 (amended): every input line equal to a noise-set member is skipped
by the converter: in the normal loop its only effect is updating the
previous-line bookkeeping, the list-absorption loop steps over it, and the
TOC branch emits entries only for non-noise lines.  (The output can still
coincidentally contain a string equal to a noise line, reassembled from
non-noise content.) -/
theorem noise_lines_are_skipped :
    (∀ (noise : Str → Bool) (fuel : Nat) (prev : Option Str) (st : ConvState)
        (cur : Str) (rest : List Str), noise (pyStrip cur) = true →
      normalLoop noise (fuel + 1) prev st (cur :: rest) =
        normalLoop noise fuel (some (pyStrip cur)) st rest) ∧
    (∀ (noise : Str → Bool) (prevRaw cur : Str) (item rest : List Str),
        noise (pyStrip cur) = true → (pyStrip cur).isEmpty = false →
      absorb noise prevRaw item (cur :: rest) = absorb noise cur item rest) ∧
    (∀ (noise : Str → Bool) (text : Str) (e : Str), e ∈ tocEntries noise text →
      ∃ l ∈ (splitNl text).map pyStrip,
        l.isEmpty = false ∧ noise l = false ∧ e = format_toc_line l) := by
  refine ⟨?_, ?_, ?_⟩
  · intro noise fuel prev st cur rest h
    simp only [normalLoop, h, if_true]
  · intro noise prevRaw cur item rest h hne
    simp only [absorb, hne, Bool.false_eq_true, if_false, h, if_true]
  · intro noise text e he
    unfold tocEntries at he
    rcases List.mem_filterMap.1 he with ⟨l, hl, hcond⟩
    refine ⟨l, hl, ?_⟩
    by_cases h1 : l.isEmpty = false
    · by_cases h2 : noise l = false
      · rw [if_pos (by simp [h1, h2])] at hcond
        exact ⟨h1, h2, (Option.some.injEq _ _ ▸ hcond).symm⟩
      · rw [if_neg (by simp_all)] at hcond
        cases hcond
    · rw [if_neg (by simp_all)] at hcond
      cases hcond

theorem noise_lines_are_skipped_witness :
    normalLoop (fun l => decide (l = "hdr".data)) 3 none ⟨[], [], [], false⟩
        ["hdr".data, "body text here.".data] =
      normalLoop (fun l => decide (l = "hdr".data)) 2 (some "hdr".data)
        ⟨[], [], [], false⟩ ["body text here.".data] :=
  noise_lines_are_skipped.1 _ 2 none _ _ _ (by decide)

theorem stInv_normalLoop (noise : Str → Bool) :
    ∀ (fuel : Nat) (prev : Option Str) (st : ConvState) (lines : List Str),
      StInv st → StInv (normalLoop noise fuel prev st lines) := by
  intro fuel
  induction fuel with
  | zero => intro prev st lines h; exact h
  | succ fuel ih =>
    intro prev st lines h
    match lines with
    | [] => exact h
    | cur :: rest =>
      rw [normalLoop]
      dsimp only
      split
      · exact ih _ _ _ h
      split
      · exact ih _ _ _ ⟨fun hc => absurd rfl hc, Or.inl rfl⟩
      split
      · exact ih _ _ _ ⟨fun hc => absurd rfl hc, Or.inl rfl⟩
      split
      · exact ih _ _ _ ⟨fun _ => rfl, Or.inl rfl⟩
      · have hitem : (if st.in_list then ([] : List Str)
            else st.current_list_item) = [] := by
          rcases h with ⟨h1, h2⟩
          split
          · rfl
          · next hin =>
            by_cases hli : st.current_list_item = []
            · exact hli
            · exact absurd (h1 hli) hin
        split
        · exact ih _ _ _ ⟨fun hx => absurd hitem hx, Or.inr hitem⟩
        split
        · exact ih _ _ _ ⟨fun hx => absurd hitem hx, Or.inr hitem⟩
        · exact ih _ _ _ ⟨fun hx => absurd hitem hx, Or.inr hitem⟩

theorem stInv_processPage (noise : Str → Bool) (st : ConvState) (idx : Nat)
    (text0 : Str) (h : StInv st) : StInv (processPage noise st idx text0) := by
  unfold processPage
  dsimp only
  split
  · exact ⟨fun hx => absurd rfl hx, Or.inl rfl⟩
  · exact stInv_normalLoop noise _ _ _ _ h

theorem stInv_foldl (noise : Str → Bool) :
    ∀ (ps : List (Nat × Str)) (st : ConvState), StInv st →
      StInv (ps.foldl (fun s p => processPage noise s p.1 p.2) st) := by
  intro ps
  induction ps with
  | nil => intro st h; exact h
  | cons q qs ih =>
    intro st h
    exact ih _ (stInv_processPage noise st q.1 q.2 h)

/-- C7: the paragraph buffer and the list-item buffer are never both
nonempty: the invariant (together with the flag invariant that a nonempty
list-item buffer implies `in_list`) is preserved by every step of the
normal per-line loop, by every page, and holds after the whole page fold
of `convert_to_markdown`. -/
theorem paragraph_list_buffers_exclusive :
    (∀ (noise : Str → Bool) (fuel : Nat) (prev : Option Str) (st : ConvState)
        (lines : List Str), StInv st → StInv (normalLoop noise fuel prev st lines)) ∧
    (∀ (noise : Str → Bool) (st : ConvState) (idx : Nat) (text0 : Str),
        StInv st → StInv (processPage noise st idx text0)) ∧
    (∀ (noise : Str → Bool) (pages : List Str),
        StInv (pages.enum.foldl (fun s p => processPage noise s p.1 p.2)
          ⟨[], [], [], false⟩)) :=
  ⟨fun noise => stInv_normalLoop noise,
    stInv_processPage,
    fun noise pages =>
      stInv_foldl noise pages.enum ⟨[], [], [], false⟩
        ⟨fun hx => absurd rfl hx, Or.inl rfl⟩⟩

theorem paragraph_list_buffers_exclusive_witness :
    StInv (normalLoop (fun _ => false) 4 none
      ⟨[], ["start of a para".data], [], false⟩
      ["- item one".data, "more text".data]) :=
  paragraph_list_buffers_exclusive.1 (fun _ => false) 4 none
    ⟨[], ["start of a para".data], [], false⟩
    ["- item one".data, "more text".data]
    ⟨fun hx => absurd rfl hx, Or.inr rfl⟩

theorem splitNl_ne_nil (s : Str) : splitNl s ≠ [] := by
  cases s with
  | nil => simp [splitNl]
  | cons c t =>
    rw [splitNl]
    split
    · simp
    · split <;> simp

theorem splitNl_cons_nl (t : Str) : splitNl ('\n' :: t) = [] :: splitNl t := by
  rw [splitNl]
  simp

theorem splitNl_cons_not_nl {c : Char} (t : Str) (hc : c ≠ '\n') :
    splitNl (c :: t) = (c :: (splitNl t).headD []) :: (splitNl t).tail := by
  rw [splitNl]
  rw [if_neg hc]
  cases hsp : splitNl t with
  | nil => exact absurd hsp (splitNl_ne_nil t)
  | cons h0 t0 => simp

theorem splitNl_no_nl (s : Str) : ∀ l ∈ splitNl s, '\n' ∉ l := by
  induction s with
  | nil =>
    intro l hl
    simp only [splitNl, List.mem_singleton] at hl
    simp [hl]
  | cons c t ih =>
    intro l hl
    by_cases hc : c = '\n'
    · subst hc
      rw [splitNl_cons_nl] at hl
      rcases List.mem_cons.1 hl with h | h
      · simp [h]
      · exact ih l h
    · rw [splitNl_cons_not_nl _ hc] at hl
      rcases List.mem_cons.1 hl with h | h
      · subst h
        intro hmem
        rcases List.mem_cons.1 hmem with h' | h'
        · exact hc h'.symm
        · cases hsp : splitNl t with
          | nil => exact absurd hsp (splitNl_ne_nil t)
          | cons h0 t0 =>
            rw [hsp] at h'
            exact ih h0 (by rw [hsp]; simp) h'
      · cases hsp : splitNl t with
        | nil => exact absurd hsp (splitNl_ne_nil t)
        | cons h0 t0 =>
          rw [hsp] at h
          exact ih l (by rw [hsp]; exact List.mem_cons_of_mem _ h)

theorem splitNl_append_nl (x y : Str) :
    splitNl (x ++ '\n' :: y) = splitNl x ++ splitNl y := by
  induction x with
  | nil => simp [splitNl_cons_nl, splitNl]
  | cons c t ih =>
    by_cases hc : c = '\n'
    · subst hc
      rw [List.cons_append, splitNl_cons_nl, ih, splitNl_cons_nl]
      rfl
    · rw [List.cons_append, splitNl_cons_not_nl _ hc, splitNl_cons_not_nl _ hc, ih]
      cases hsp : splitNl t with
      | nil => exact absurd hsp (splitNl_ne_nil t)
      | cons h0 t0 => simp

theorem splitNl_of_no_nl {s : Str} (h : '\n' ∉ s) : splitNl s = [s] := by
  induction s with
  | nil => rfl
  | cons c t ih =>
    have hc : c ≠ '\n' := fun hx => h (by simp [hx])
    rw [splitNl_cons_not_nl _ hc, ih (fun hx => h (by simp [hx]))]
    simp

theorem splitNl_joinNl {ps : List Str} (hne : ps ≠ [])
    (h : ∀ p ∈ ps, '\n' ∉ p) : splitNl (joinNl ps) = ps := by
  induction ps with
  | nil => exact absurd rfl hne
  | cons p qs ih =>
    cases qs with
    | nil => exact splitNl_of_no_nl (h p (by simp))
    | cons q qs' =>
      rw [show joinNl (p :: q :: qs') = p ++ '\n' :: joinNl (q :: qs') from rfl]
      rw [splitNl_append_nl, splitNl_of_no_nl (h p (by simp))]
      rw [ih (by simp) (fun r hr => h r (by simp [hr]))]
      rfl

theorem linesOk_joinNl {ps : List Str} (h : ∀ p ∈ ps, LinesOk p) :
    LinesOk (joinNl ps) := by
  induction ps with
  | nil =>
    intro l hl
    simp only [joinNl, splitNl, List.mem_singleton] at hl
    exact Or.inl hl
  | cons p qs ih =>
    cases qs with
    | nil => exact h p (by simp)
    | cons q qs' =>
      intro l hl
      rw [show joinNl (p :: q :: qs') = p ++ '\n' :: joinNl (q :: qs') from rfl,
        splitNl_append_nl] at hl
      rcases List.mem_append.1 hl with h1 | h1
      · exact h p (by simp) l h1
      · exact ih (fun r hr => h r (by simp [hr])) l h1

theorem pyStrip_mem {l : Str} {c : Char} (h : c ∈ pyStrip l) : c ∈ l := by
  unfold pyStrip at h
  rw [List.mem_reverse] at h
  have h1 := (List.dropWhile_suffix pyIsSpace).sublist.subset h
  rw [List.mem_reverse] at h1
  exact (List.dropWhile_suffix pyIsSpace).sublist.subset h1

theorem pyStrip_head_not_space {l : Str} {c : Char} {t : Str}
    (h : pyStrip l = c :: t) : pyIsSpace c = false := by
  have hpre : pyStrip l <+: l.dropWhile pyIsSpace := by
    rw [← List.reverse_suffix]
    unfold pyStrip
    rw [List.reverse_reverse]
    exact List.dropWhile_suffix pyIsSpace
  rw [h] at hpre
  rcases hpre with ⟨r, hr⟩
  have hlen : 0 < (l.dropWhile pyIsSpace).length := by
    rw [← hr]; simp
  have hnot := List.dropWhile_get_zero_not pyIsSpace l hlen
  have hget : (l.dropWhile pyIsSpace).get ⟨0, hlen⟩ = c := by
    have : l.dropWhile pyIsSpace = c :: (t ++ r) := by rw [← hr]; rfl
    simp [this]
  rw [hget] at hnot
  simpa using hnot

theorem pyStrip_fragOk {l : Str} (hne : pyStrip l ≠ []) (hnl : '\n' ∉ l) :
    FragOk (pyStrip l) := by
  cases h : pyStrip l with
  | nil => exact absurd h hne
  | cons c t =>
    constructor
    · exact ⟨c, by simp, pyStrip_head_not_space h⟩
    · intro hmem
      exact hnl (pyStrip_mem (h ▸ hmem))

theorem pyRStrip_last_not_space {x : Str} {c : Char}
    (h : (pyRStrip x).getLast? = some c) : pyIsSpace c = false := by
  unfold pyRStrip at h
  rw [List.getLast?_reverse] at h
  cases hd : x.reverse.dropWhile pyIsSpace with
  | nil => rw [hd] at h; cases h
  | cons d u =>
    rw [hd] at h
    have hdc : d = c := by simpa using h
    subst hdc
    have hlen : 0 < (x.reverse.dropWhile pyIsSpace).length := by rw [hd]; simp
    have hnot := List.dropWhile_get_zero_not pyIsSpace x.reverse hlen
    have hget : (x.reverse.dropWhile pyIsSpace).get ⟨0, hlen⟩ = d := by simp [hd]
    rw [hget] at hnot
    simpa using hnot

theorem pyRStrip_no_nl {x : Str} (h : '\n' ∉ x) : '\n' ∉ pyRStrip x := by
  intro hmem
  apply h
  unfold pyRStrip at hmem
  rw [List.mem_reverse] at hmem
  have := (List.dropWhile_suffix pyIsSpace).sublist.subset hmem
  rwa [List.mem_reverse] at this

theorem pyRStrip_eq_nil_iff {x : Str} :
    pyRStrip x = [] ↔ ∀ c ∈ x, pyIsSpace c = true := by
  unfold pyRStrip
  rw [List.reverse_eq_nil_iff, List.dropWhile_eq_nil_iff]
  constructor
  · intro h c hc
    exact h c (List.mem_reverse.2 hc)
  · intro h c hc
    exact h c (List.mem_reverse.1 hc)

theorem joinSp_no_nl {ps : List Str} (h : ∀ p ∈ ps, '\n' ∉ p) :
    '\n' ∉ joinSp ps := by
  induction ps with
  | nil => simp [joinSp]
  | cons p qs ih =>
    cases qs with
    | nil => exact h p (by simp)
    | cons q qs' =>
      rw [show joinSp (p :: q :: qs') = p ++ ' ' :: joinSp (q :: qs') from rfl]
      intro hmem
      rcases List.mem_append.1 hmem with h1 | h1
      · exact h p (by simp) h1
      · rcases List.mem_cons.1 h1 with h2 | h2
        · cases h2
        · exact ih (fun r hr => h r (by simp [hr])) h2

theorem joinSp_has_nonws {ps : List Str} (hne : ps ≠ [])
    (h : ∀ p ∈ ps, ∃ c ∈ p, pyIsSpace c = false) :
    ∃ c ∈ joinSp ps, pyIsSpace c = false := by
  cases ps with
  | nil => exact absurd rfl hne
  | cons p qs =>
    rcases h p (by simp) with ⟨c, hc, hcs⟩
    cases qs with
    | nil => exact ⟨c, hc, hcs⟩
    | cons q qs' =>
      exact ⟨c, by
        rw [show joinSp (p :: q :: qs') = p ++ ' ' :: joinSp (q :: qs') from rfl]
        exact List.mem_append.2 (Or.inl hc), hcs⟩

theorem dehyphStep_ne_nil (acc : List Str) (line : Str) :
    dehyphStep acc line ≠ [] := by
  unfold dehyphStep
  cases acc.getLast? with
  | none => simp
  | some l =>
    dsimp only
    split <;> simp

theorem dehyphStep_ok {acc : List Str} {line : Str}
    (hacc : ∀ a ∈ acc, FragOk a) (hline : FragOk line) :
    ∀ a ∈ dehyphStep acc line, FragOk a := by
  intro a ha
  unfold dehyphStep at ha
  cases hl : acc.getLast? with
  | none =>
    rw [hl] at ha
    dsimp only at ha
    rcases List.mem_append.1 ha with h | h
    · exact hacc a h
    · rw [List.mem_singleton] at h
      subst h
      exact hline
  | some l =>
    rw [hl] at ha
    dsimp only at ha
    split at ha
    · rcases List.mem_append.1 ha with h | h
      · exact hacc a ((List.dropLast_sublist _).subset h)
      · rw [List.mem_singleton] at h
        subst h
        rcases hline with ⟨⟨c, hc, hcs⟩, hnl⟩
        constructor
        · exact ⟨c, List.mem_append.2 (Or.inr hc), hcs⟩
        · intro hmem
          rcases List.mem_append.1 hmem with h1 | h1
          · exact (hacc l (List.mem_of_getLast?_eq_some hl)).2 ((List.dropLast_sublist _).subset h1)
          · exact hnl h1
    · rcases List.mem_append.1 ha with h | h
      · exact hacc a h
      · rw [List.mem_singleton] at h
        subst h
        exact hline

theorem dehyph_fold_ok {ls : List Str} :
    ∀ {acc : List Str}, (∀ f ∈ ls, FragOk f) → (∀ a ∈ acc, FragOk a) →
      ∀ a ∈ ls.foldl dehyphStep acc, FragOk a := by
  induction ls with
  | nil => intro acc _ hacc; exact hacc
  | cons l ls' ih =>
    intro acc hls hacc
    rw [List.foldl_cons]
    exact ih (fun f hf => hls f (by simp [hf]))
      (dehyphStep_ok hacc (hls l (by simp)))

theorem dehyph_fold_ne_nil {ls : List Str} :
    ∀ {acc : List Str}, acc ≠ [] ∨ ls ≠ [] → ls.foldl dehyphStep acc ≠ [] := by
  induction ls with
  | nil =>
    intro acc h
    rcases h with h | h
    · exact h
    · exact absurd rfl h
  | cons l ls' ih =>
    intro acc _
    rw [List.foldl_cons]
    exact ih (Or.inl (dehyphStep_ne_nil acc l))

theorem join_with_dehyphenation_fragOk {ls : List Str} (hne : ls ≠ [])
    (h : ∀ f ∈ ls, FragOk f) : FragOk (join_with_dehyphenation ls) := by
  unfold join_with_dehyphenation
  rw [if_neg (by simpa [List.isEmpty_iff] using hne)]
  have hfold : ∀ a ∈ ls.foldl dehyphStep [], FragOk a :=
    dehyph_fold_ok h (by intro a ha; cases ha)
  have hfne : ls.foldl dehyphStep [] ≠ [] := dehyph_fold_ne_nil (Or.inr hne)
  constructor
  · exact joinSp_has_nonws hfne (fun p hp => (hfold p hp).1)
  · exact joinSp_no_nl (fun p hp => (hfold p hp).2)

theorem pyStrip_last_not_space {l : Str} {c : Char}
    (h : (pyStrip l).getLast? = some c) : pyIsSpace c = false := by
  unfold pyStrip at h
  rw [List.getLast?_reverse] at h
  cases hd : (l.dropWhile pyIsSpace).reverse.dropWhile pyIsSpace with
  | nil => rw [hd] at h; cases h
  | cons d u =>
    rw [hd] at h
    have hdc : d = c := by simpa using h
    subst hdc
    have hlen : 0 < ((l.dropWhile pyIsSpace).reverse.dropWhile pyIsSpace).length := by
      rw [hd]; simp
    have hnot := List.dropWhile_get_zero_not pyIsSpace (l.dropWhile pyIsSpace).reverse hlen
    have hget : ((l.dropWhile pyIsSpace).reverse.dropWhile pyIsSpace).get ⟨0, hlen⟩ = d := by
      simp [hd]
    rw [hget] at hnot
    simpa using hnot

theorem pyStrip_idem (l : Str) : pyStrip (pyStrip l) = pyStrip l := by
  have h1 : (pyStrip l).dropWhile pyIsSpace = pyStrip l := by
    cases h : pyStrip l with
    | nil => simp
    | cons c t => rw [List.dropWhile_cons_of_neg (by simp [pyStrip_head_not_space h])]
  show (((pyStrip l).dropWhile pyIsSpace).reverse.dropWhile pyIsSpace).reverse = pyStrip l
  rw [h1]
  cases h : (pyStrip l).reverse with
  | nil =>
    rw [List.reverse_eq_nil_iff] at h
    simp [h]
  | cons c t =>
    have hc : (pyStrip l).getLast? = some c := by
      rw [← List.reverse_reverse (pyStrip l), List.getLast?_reverse, h]
      rfl
    rw [List.dropWhile_cons_of_neg (by simp [pyStrip_last_not_space hc])]
    rw [← h, List.reverse_reverse]

theorem reScan_text_no_nl {tm : Str → Option Str} :
    ∀ {s pre text loc : Str}, '\n' ∉ pre →
      reScan tm pre s = some (text, loc) → '\n' ∉ text := by
  intro s
  induction s with
  | nil => intro pre text loc _ h; cases h
  | cons c rest ih =>
    intro pre text loc hpre h
    rw [reScan] at h
    split at h
    · cases h
    · next hc =>
      cases htm : tm rest with
      | some lc =>
        rw [htm] at h
        dsimp only at h
        cases h
        intro hmem
        rcases List.mem_append.1 hmem with h1 | h1
        · exact hpre h1
        · rw [List.mem_singleton] at h1
          exact hc h1.symm
      | none =>
        rw [htm] at h
        dsimp only at h
        exact ih (by
          intro hmem
          rcases List.mem_append.1 hmem with h1 | h1
          · exact hpre h1
          · rw [List.mem_singleton] at h1
            exact hc h1.symm) h

theorem reScan_loc_prop {tm : Str → Option Str} {p : Str → Prop}
    (htm : ∀ r lc, tm r = some lc → p lc) :
    ∀ {s pre text loc : Str}, reScan tm pre s = some (text, loc) → p loc := by
  intro s
  induction s with
  | nil => intro pre text loc h; cases h
  | cons c rest ih =>
    intro pre text loc h
    rw [reScan] at h
    split at h
    · cases h
    · cases hr : tm rest with
      | some lc =>
        rw [hr] at h
        dsimp only at h
        cases h
        exact htm rest loc hr
      | none =>
        rw [hr] at h
        dsimp only at h
        exact ih h

theorem dotTail_loc {isLoc : Char → Bool} {rest out : Str}
    (h : dotTail isLoc rest = some out) : ∀ c ∈ out, isLoc c = true := by
  unfold dotTail at h
  dsimp only at h
  split at h
  · cases h
    intro c hc
    exact List.mem_takeWhile_imp hc
  · cases h

theorem wsTail_loc {isLoc : Char → Bool} {rest out : Str}
    (h : wsTail isLoc rest = some out) : ∀ c ∈ out, isLoc c = true := by
  unfold wsTail at h
  dsimp only at h
  split at h
  · cases h
    intro c hc
    exact List.mem_takeWhile_imp hc
  · cases h

theorem pyIsDigit_ne_nl {c : Char} (h : pyIsDigit c = true) : c ≠ '\n' := by
  intro hc
  subst hc
  exact absurd h (by decide)

theorem pyIsRoman_ne_nl {c : Char} (h : pyIsRoman c = true) : c ≠ '\n' := by
  intro hc
  subst hc
  exact absurd h (by decide)

theorem mkTocOut_fragOk {page text : Str} (hpage : '\n' ∉ page)
    (htext : '\n' ∉ text) : FragOk (mkTocOut page text) := by
  constructor
  · refine ⟨'.', ?_, by decide⟩
    unfold mkTocOut
    exact List.mem_append.2 (Or.inr (by simp))
  · unfold mkTocOut
    intro hmem
    rcases List.mem_append.1 hmem with h1 | h1
    · exact hpage (pyStrip_mem h1)
    · rcases List.mem_cons.1 h1 with h2 | h2
      · cases h2
      · rcases List.mem_cons.1 h2 with h3 | h3
        · cases h3
        · rcases List.mem_cons.1 h3 with h4 | h4
          · cases h4
          · rcases List.mem_cons.1 h4 with h5 | h5
            · cases h5
            · rcases List.mem_cons.1 h5 with h6 | h6
              · cases h6
              · exact htext (pyStrip_mem h6)

theorem appendDots_fragOk {line : Str} (h : '\n' ∉ line) :
    FragOk (line ++ [' ', '.', '.', '.']) := by
  constructor
  · exact ⟨'.', List.mem_append.2 (Or.inr (by simp)), by decide⟩
  · intro hm
    rcases List.mem_append.1 hm with h1 | h1
    · exact h h1
    · exact absurd h1 (by decide)

theorem format_toc_line_fragOk {l : Str} (hne : pyStrip l ≠ []) (hnl : '\n' ∉ l) :
    FragOk (format_toc_line l) := by
  have hnl' : '\n' ∉ pyStrip l := fun hm => hnl (pyStrip_mem hm)
  have hstripFrag : FragOk (pyStrip l) := pyStrip_fragOk hne hnl
  have hnil : '\n' ∉ ([] : Str) := fun hx => by cases hx
  unfold format_toc_line
  dsimp only
  cases h1 : reScan (dotTail pyIsDigit) [] (pyStrip l) with
  | some r =>
    obtain ⟨text, page⟩ := r
    have hpage : '\n' ∉ page := fun hm => by
      have hprop : ∀ c ∈ page, pyIsDigit c = true :=
        reScan_loc_prop (fun r lc hr => dotTail_loc hr) h1
      exact pyIsDigit_ne_nl (hprop '\n' hm) rfl
    exact mkTocOut_fragOk hpage (reScan_text_no_nl hnil h1)
  | none =>
  cases h2 : reScan (dotTail pyIsRoman) [] (pyStrip l) with
  | some r =>
    obtain ⟨text, page⟩ := r
    have hpage : '\n' ∉ page := fun hm => by
      have hprop : ∀ c ∈ page, pyIsRoman c = true :=
        reScan_loc_prop (fun r lc hr => dotTail_loc hr) h2
      exact pyIsRoman_ne_nl (hprop '\n' hm) rfl
    exact mkTocOut_fragOk hpage (reScan_text_no_nl hnil h2)
  | none =>
  have tail56 : FragOk
      (if (fullMatchRun pyIsDigit (pyStrip l) && decide ((pyStrip l).length ≤ 4)) = true
        then pyStrip l ++ [' ', '.', '.', '.']
        else if (fullMatchRun pyIsRoman (pyStrip l) && decide ((pyStrip l).length ≤ 5)) = true
          then pyStrip l ++ [' ', '.', '.', '.']
          else pyStrip l) := by
    split
    · exact appendDots_fragOk hnl'
    split
    · exact appendDots_fragOk hnl'
    · exact hstripFrag
  cases h3 : reScan (wsTail pyIsDigit) [] (pyStrip l) with
  | some r =>
    obtain ⟨text, page⟩ := r
    dsimp only
    by_cases hlen : page.length ≤ 4
    · rw [if_pos hlen]
      have hpage : '\n' ∉ page := fun hm => by
        have hprop : ∀ c ∈ page, pyIsDigit c = true :=
          reScan_loc_prop (fun r lc hr => wsTail_loc hr) h3
        exact pyIsDigit_ne_nl (hprop '\n' hm) rfl
      exact mkTocOut_fragOk hpage (reScan_text_no_nl hnil h3)
    · rw [if_neg hlen]
      cases h4 : reScan (wsTail pyIsRoman) [] (pyStrip l) with
      | some r2 =>
        obtain ⟨text2, page2⟩ := r2
        dsimp only
        by_cases hlen2 : page2.length ≤ 5
        · rw [if_pos hlen2]
          have hpage2 : '\n' ∉ page2 := fun hm => by
            have hprop : ∀ c ∈ page2, pyIsRoman c = true :=
              reScan_loc_prop (fun r lc hr => wsTail_loc hr) h4
            exact pyIsRoman_ne_nl (hprop '\n' hm) rfl
          exact mkTocOut_fragOk hpage2 (reScan_text_no_nl hnil h4)
        · rw [if_neg hlen2]
          exact tail56
      | none =>
        exact tail56
  | none =>
    cases h4 : reScan (wsTail pyIsRoman) [] (pyStrip l) with
    | some r2 =>
      obtain ⟨text2, page2⟩ := r2
      dsimp only
      by_cases hlen2 : page2.length ≤ 5
      · rw [if_pos hlen2]
        have hpage2 : '\n' ∉ page2 := fun hm => by
          have hprop : ∀ c ∈ page2, pyIsRoman c = true :=
            reScan_loc_prop (fun r lc hr => wsTail_loc hr) h4
          exact pyIsRoman_ne_nl (hprop '\n' hm) rfl
        exact mkTocOut_fragOk hpage2 (reScan_text_no_nl hnil h4)
      · rw [if_neg hlen2]
        exact tail56
    | none =>
      exact tail56

theorem linesOk_of_fragOk {e : Str} (h : FragOk e) : LinesOk e := by
  intro l hl
  rw [splitNl_of_no_nl h.2, List.mem_singleton] at hl
  subst hl
  exact Or.inr h.1

theorem linesOk_nil : LinesOk ([] : Str) := by
  intro l hl
  simp only [splitNl, List.mem_singleton] at hl
  exact Or.inl hl

theorem mdOk_append_entry {md : List Str} {e : Str} (h : MdOk md)
    (he : LinesOk e) (hw : ∃ c ∈ e, pyIsSpace c = false) : MdOk (md ++ [e]) := by
  constructor
  · intro x hx
    rcases List.mem_append.1 hx with h1 | h1
    · exact h.1 x h1
    · rw [List.mem_singleton] at h1
      subst h1
      exact he
  · right
    exact ⟨e, List.mem_append.2 (Or.inr (by simp)), hw⟩

theorem mdOk_append_frag_sep {md : List Str} {e : Str} (h : MdOk md)
    (he : FragOk e) : MdOk (md ++ [e, []]) := by
  constructor
  · intro x hx
    rcases List.mem_append.1 hx with h1 | h1
    · exact h.1 x h1
    · rcases List.mem_cons.1 h1 with h2 | h2
      · subst h2
        exact linesOk_of_fragOk he
      · rw [List.mem_singleton] at h2
        subst h2
        exact linesOk_nil
  · right
    exact ⟨e, List.mem_append.2 (Or.inr (by simp)), he.1⟩

theorem mdOk_flushList {md : List Str} {item : List Str} (h : MdOk md)
    (hitem : ∀ f ∈ item, FragOk f) : MdOk (flushList md item) := by
  unfold flushList
  cases hi : item with
  | nil => simpa using h
  | cons f fs =>
    rw [if_neg (by simp)]
    have hj : FragOk (join_with_dehyphenation (f :: fs)) :=
      join_with_dehyphenation_fragOk (by simp) (hi ▸ hitem)
    exact mdOk_append_entry h (linesOk_of_fragOk hj) hj.1

theorem mdOk_flushPara {md : List Str} {para : List Str} (h : MdOk md)
    (hpara : ∀ f ∈ para, FragOk f) : MdOk (flushPara md para) := by
  unfold flushPara
  cases hp : para with
  | nil => simpa using h
  | cons f fs =>
    rw [if_neg (by simp)]
    have hj : FragOk (join_with_dehyphenation (f :: fs)) :=
      join_with_dehyphenation_fragOk (by simp) (hp ▸ hpara)
    exact mdOk_append_frag_sep h hj

theorem truthyLevel_pos {o : Option Nat} (h : truthyLevel o = true) :
    1 ≤ o.getD 0 := by
  cases o with
  | none => cases h
  | some n =>
    simp only [truthyLevel, decide_eq_true_eq] at h
    simp only [Option.getD_some]
    omega

theorem stripHashes_subset {line : Str} {c : Char} (h : c ∈ stripHashes line) :
    c ∈ line := by
  unfold stripHashes at h
  split at h
  · exact (List.drop_subset _ _) ((List.dropWhile_suffix _).sublist.subset h)
  · exact h

theorem heading_entry_fragOk {lvl : Nat} {line : Str} (hl : 1 ≤ lvl)
    (hnl : '\n' ∉ line) : FragOk (List.replicate lvl '#' ++ ' ' :: stripHashes line) := by
  constructor
  · refine ⟨'#', List.mem_append.2 (Or.inl ?_), by decide⟩
    rw [List.mem_replicate]
    exact ⟨by omega, rfl⟩
  · intro hm
    rcases List.mem_append.1 hm with h1 | h1
    · rw [List.mem_replicate] at h1
      cases h1.2
    · rcases List.mem_cons.1 h1 with h2 | h2
      · cases h2
      · exact hnl (stripHashes_subset h2)

theorem cleanBullet_fragOk {line : Str} (h : FragOk line) :
    FragOk (cleanBullet line) := by
  cases hl : line with
  | nil => rw [hl] at h; exact h
  | cons c rest =>
    rw [cleanBullet]
    split
    · constructor
      · exact ⟨'-', by simp, by decide⟩
      · intro hm
        rcases List.mem_cons.1 hm with h1 | h1
        · cases h1
        · rcases List.mem_cons.1 h1 with h2 | h2
          · cases h2
          · rw [hl] at h
            exact h.2 (List.mem_cons_of_mem _ ((List.dropWhile_suffix _).sublist.subset h2))
    · rw [hl] at h
      exact h

theorem absorb_item_fragOk (noise : Str → Bool) :
    ∀ (ls : List Str) (prevRaw : Str) (item : List Str),
      (∀ x ∈ ls, '\n' ∉ x) → (∀ f ∈ item, FragOk f) →
      ∀ f ∈ (absorb noise prevRaw item ls).2, FragOk f := by
  intro ls
  induction ls with
  | nil => intro prevRaw item _ hitem; exact hitem
  | cons cur rest ih =>
    intro prevRaw item hnl hitem
    rw [absorb]
    have hfrag : (pyStrip cur).isEmpty = false → FragOk (pyStrip cur) := by
      intro hne
      exact pyStrip_fragOk (by simpa [List.isEmpty_iff] using hne)
        (hnl cur (by simp))
    have hrest : ∀ x ∈ rest, '\n' ∉ x := fun x hx => hnl x (by simp [hx])
    have hitem' : (pyStrip cur).isEmpty = false →
        ∀ f ∈ item ++ [pyStrip cur], FragOk f := by
      intro hne f hf
      rcases List.mem_append.1 hf with h1 | h1
      · exact hitem f h1
      · rw [List.mem_singleton] at h1
        subst h1
        exact hfrag hne
    split
    · exact hitem
    split
    · next hne _ => exact ih cur item hrest hitem
    split
    · exact hitem
    split
    · split
      · next hne _ _ _ _ =>
        exact hitem' (by simpa using hne)
      · next hne _ _ _ _ =>
        exact ih cur _ hrest (hitem' (by simpa using hne))
    · next hne _ _ _ =>
      exact ih cur _ hrest (hitem' (by simpa using hne))

theorem absorb_fst_suffix (noise : Str → Bool) :
    ∀ (ls : List Str) (prevRaw : Str) (item : List Str),
      (absorb noise prevRaw item ls).1 <:+ ls := by
  intro ls
  induction ls with
  | nil => intro prevRaw item; exact List.suffix_refl _
  | cons cur rest ih =>
    intro prevRaw item
    rw [absorb]
    split
    · exact List.suffix_refl _
    split
    · exact (ih cur item).trans (List.suffix_cons _ _)
    split
    · exact List.suffix_refl _
    split
    · split
      · exact List.suffix_cons _ _
      · exact (ih cur _).trans (List.suffix_cons _ _)
    · exact (ih cur _).trans (List.suffix_cons _ _)

theorem mdOk_append_opt_join {md : List Str} {buf : List Str} (h : MdOk md)
    (hb : ∀ f ∈ buf, FragOk f) :
    MdOk (md ++ (if buf.isEmpty then [] else [join_with_dehyphenation buf])) := by
  cases buf with
  | nil => simpa using h
  | cons f fs =>
    rw [if_neg (by simp)]
    have hj : FragOk (join_with_dehyphenation (f :: fs)) :=
      join_with_dehyphenation_fragOk (by simp) hb
    exact mdOk_append_entry h (linesOk_of_fragOk hj) hj.1

theorem goodSt_normalLoop (noise : Str → Bool) :
    ∀ (fuel : Nat) (prev : Option Str) (st : ConvState) (lines : List Str),
      (∀ x ∈ lines, '\n' ∉ x) → GoodSt st →
      GoodSt (normalLoop noise fuel prev st lines) := by
  intro fuel
  induction fuel with
  | zero => intro prev st lines _ h; exact h
  | succ fuel ih =>
    intro prev st lines hnl h
    match lines with
    | [] => exact h
    | cur :: rest =>
      obtain ⟨hmd, hpara, hitem⟩ := h
      have hcur : '\n' ∉ cur := hnl cur (by simp)
      have hrest : ∀ x ∈ rest, '\n' ∉ x := fun x hx => hnl x (by simp [hx])
      have hlinefrag : pyStrip cur ≠ [] → FragOk (pyStrip cur) :=
        fun hne => pyStrip_fragOk hne hcur
      rw [normalLoop]
      dsimp only
      split
      · exact ih _ _ _ hrest ⟨hmd, hpara, hitem⟩
      split
      · refine ih _ _ _ hrest ⟨?_, ?_, ?_⟩
        · exact mdOk_flushPara (mdOk_flushList hmd hitem) hpara
        · intro f hf; cases hf
        · intro f hf; cases hf
      next hblank0 =>
      have hblank : pyStrip cur ≠ [] := by
        simpa [List.isEmpty_iff] using hblank0
      have hfrag : FragOk (pyStrip cur) := hlinefrag hblank
      split
      · next htr =>
        refine ih _ _ _ hrest ⟨?_, ?_, ?_⟩
        · refine mdOk_append_frag_sep (mdOk_flushPara (mdOk_flushList hmd hitem) hpara) ?_
          exact heading_entry_fragOk (truthyLevel_pos htr) (fun hm => hcur (pyStrip_mem hm))
        · intro f hf; cases hf
        · intro f hf; cases hf
      split
      · refine ih _ _ _ (fun x hx =>
            hrest x ((absorb_fst_suffix noise rest cur _).sublist.subset hx))
          ⟨?_, ?_, ?_⟩
        · exact mdOk_flushPara (mdOk_flushList hmd hitem) hpara
        · intro f hf; cases hf
        · refine absorb_item_fragOk noise rest cur _ hrest ?_
          intro f hf
          rw [List.mem_singleton] at hf
          subst hf
          split
          · exact cleanBullet_fragOk hfrag
          · exact hfrag
      · have hmd1 : MdOk (if st.in_list then
            flushList st.markdown_lines st.current_list_item else st.markdown_lines) := by
          split
          · exact mdOk_flushList hmd hitem
          · exact hmd
        have hitem1 : ∀ f ∈ (if st.in_list then ([] : List Str)
            else st.current_list_item), FragOk f := by
          split
          · intro f hf; cases hf
          · exact hitem
        split
        · exact ih _ _ _ hrest ⟨hmd1, by
            intro f hf
            rw [List.mem_singleton] at hf
            subst hf
            exact hfrag, hitem1⟩
        split
        · refine ih _ _ _ hrest ⟨hmd1, ?_, hitem1⟩
          intro f hf
          rcases List.mem_append.1 hf with h1 | h1
          · exact hpara f h1
          · rw [List.mem_singleton] at h1
            subst h1
            exact hfrag
        · next hpe _ =>
          refine ih _ _ _ hrest ⟨?_, ?_, hitem1⟩
          · refine mdOk_append_frag_sep hmd1 ?_
            refine join_with_dehyphenation_fragOk ?_ hpara
            intro hx
            rw [hx] at hpe
            simp at hpe
          · intro f hf
            rw [List.mem_singleton] at hf
            subst hf
            exact hfrag

theorem toc_header_linesOk : LinesOk ("## Table of Contents\n".data) := by
  intro l hl
  have hsp : splitNl ("## Table of Contents\n".data) =
      ["## Table of Contents".data, []] := by decide
  rw [hsp] at hl
  rcases List.mem_cons.1 hl with h | h
  · subst h
    exact Or.inr ⟨'#', by decide, by decide⟩
  · rw [List.mem_singleton] at h
    subst h
    exact Or.inl rfl

theorem tocEntries_fragOk (noise : Str → Bool) (text : Str) :
    ∀ e ∈ tocEntries noise text, FragOk e := by
  intro e he
  unfold tocEntries at he
  rcases List.mem_filterMap.1 he with ⟨l, hl, hcond⟩
  rcases List.mem_map.1 hl with ⟨raw, hraw, hstrip⟩
  by_cases hc : (!l.isEmpty && !noise l) = true
  · rw [if_pos hc] at hcond
    cases hcond
    rw [Bool.and_eq_true] at hc
    have hlne : l ≠ [] := by
      simpa [List.isEmpty_iff] using hc.1
    have hnl : '\n' ∉ l := by
      intro hm
      subst hstrip
      exact splitNl_no_nl text raw hraw (pyStrip_mem hm)
    refine format_toc_line_fragOk ?_ hnl
    subst hstrip
    rw [pyStrip_idem]
    exact hlne
  · rw [if_neg hc] at hcond
    cases hcond

theorem goodSt_processPageToc (noise : Str → Bool) (text : Str) (st : ConvState)
    (h : GoodSt st) : GoodSt (processPageToc noise text st) := by
  obtain ⟨hmd, hpara, hitem⟩ := h
  have hmd1 : MdOk (tocFlush st).markdown_lines := by
    unfold tocFlush
    dsimp only
    exact mdOk_append_opt_join (mdOk_append_opt_join hmd hpara) hitem
  have hmd2 : MdOk (if tocHeaderNeeded (tocFlush st).markdown_lines then
      (tocFlush st).markdown_lines ++ [[], "## Table of Contents\n".data]
    else (tocFlush st).markdown_lines) := by
    split
    · constructor
      · intro e he
        rcases List.mem_append.1 he with h1 | h1
        · exact hmd1.1 e h1
        · rcases List.mem_cons.1 h1 with h2 | h2
          · subst h2; exact linesOk_nil
          · rw [List.mem_singleton] at h2
            subst h2
            exact toc_header_linesOk
      · right
        exact ⟨"## Table of Contents\n".data,
          List.mem_append.2 (Or.inr (by simp)), 'T', by decide, by decide⟩
    · next hneed =>
      constructor
      · exact hmd1.1
      · right
        have hany : ((tocFlush st).markdown_lines.drop
            ((tocFlush st).markdown_lines.length - 5)).any
            (fun l => !l.isEmpty && containsSub "Table of Contents".data l) = true := by
          cases hx : ((tocFlush st).markdown_lines.drop
              ((tocFlush st).markdown_lines.length - 5)).any
              (fun l => !l.isEmpty && containsSub "Table of Contents".data l) with
          | true => rfl
          | false =>
            exfalso
            exact hneed (by simp [tocHeaderNeeded, hx])
        rcases List.any_eq_true.1 hany with ⟨e, he, hcond⟩
        rw [Bool.and_eq_true] at hcond
        refine ⟨e, (List.drop_subset _ _) he, 'T', ?_, by decide⟩
        have := hcond.2
        rw [containsSub_iff] at this
        exact this.subset (by decide)
  constructor
  · constructor
    · intro e he
      rcases List.mem_append.1 he with h1 | h1
      · rcases List.mem_append.1 h1 with h2 | h2
        · exact hmd2.1 e h2
        · exact linesOk_of_fragOk (tocEntries_fragOk noise text e h2)
      · rw [List.mem_singleton] at h1
        subst h1
        exact linesOk_nil
    · right
      rcases hmd2.2 with h1 | ⟨e, he, hw⟩
      · exfalso
        revert h1
        split
        · intro h1
          simp at h1
        · next hneed =>
          intro h1
          try rw [h1] at hneed
          exact hneed (by decide)
      · exact ⟨e, List.mem_append.2 (Or.inl (List.mem_append.2 (Or.inl he))), hw⟩
  constructor
  · intro f hf; cases hf
  · intro f hf; cases hf

theorem goodSt_processPage (noise : Str → Bool) (st : ConvState) (idx : Nat)
    (text0 : Str) (h : GoodSt st) : GoodSt (processPage noise st idx text0) := by
  unfold processPage
  dsimp only
  split
  · exact goodSt_processPageToc noise _ st h
  · exact goodSt_normalLoop noise _ _ _ _ (splitNl_no_nl _) h

theorem goodSt_foldl (noise : Str → Bool) :
    ∀ (ps : List (Nat × Str)) (st : ConvState), GoodSt st →
      GoodSt (ps.foldl (fun s p => processPage noise s p.1 p.2) st) := by
  intro ps
  induction ps with
  | nil => intro st h; exact h
  | cons q qs ih =>
    intro st h
    exact ih _ (goodSt_processPage noise st q.1 q.2 h)

theorem noTriple_short {s : Str} (h : s.length ≤ 2) : noTriple s = true := by
  match s with
  | [] => rfl
  | [_] => rfl
  | [_, _] => rfl
  | _ :: _ :: _ :: _ => simp at h

theorem noTriple_cons_of_ne {c : Char} (hc : c ≠ '\n') (s : Str) :
    noTriple (c :: s) = noTriple s := by
  match s with
  | [] => rfl
  | [_] => rfl
  | a :: b :: t =>
    rw [noTriple, if_neg (by simp [hc])]

theorem noTriple_of_cons {c : Char} {s : Str} (h : noTriple (c :: s) = true) :
    noTriple s = true := by
  match s with
  | [] => rfl
  | [_] => rfl
  | a :: b :: t =>
    rw [noTriple] at h
    split at h
    · cases h
    · exact h

theorem noTriple_of_append {xs ys : Str} (h : noTriple (xs ++ ys) = true) :
    noTriple ys = true := by
  induction xs with
  | nil => exact h
  | cons x xs' ih => exact ih (noTriple_of_cons h)

theorem noTriple_take {b : Str} :
    ∀ {a : Str}, noTriple (a ++ b) = true → noTriple a = true := by
  intro a
  induction a with
  | nil => intro _; rfl
  | cons x a' ih =>
    intro h
    cases a' with
    | nil => rfl
    | cons z a2 =>
      cases a2 with
      | nil => rfl
      | cons w a3 =>
        simp only [List.cons_append] at h
        rw [noTriple] at h ⊢
        split at h
        · cases h
        · next hcond =>
          rw [if_neg hcond]
          exact ih h

theorem noTriple_nl_cons {c : Char} {Z : Str} (hc : c ≠ '\n')
    (hZ : noTriple (c :: Z) = true) : noTriple ('\n' :: c :: Z) = true := by
  match Z with
  | [] => rfl
  | d :: Z' =>
    rw [noTriple, if_neg (by simp [hc])]
    exact hZ

theorem noTriple_append_mid {b : Str} {c : Char} (hc : c ≠ '\n')
    (hb : noTriple b = true) :
    ∀ {a : Str}, noTriple (a ++ [c]) = true → noTriple (a ++ c :: b) = true := by
  intro a
  induction a with
  | nil =>
    intro _
    rw [List.nil_append, noTriple_cons_of_ne hc]
    exact hb
  | cons x a' ih =>
    intro h1
    match a' with
    | [] =>
      simp only [List.cons_append, List.nil_append] at h1 ⊢
      match b with
      | [] => exact noTriple_short (by simp)
      | d :: b2 =>
        rw [noTriple, if_neg (by simp [hc])]
        rw [noTriple_cons_of_ne hc]
        exact hb
    | z :: a2 =>
      match a2 with
      | [] =>
        simp only [List.cons_append, List.nil_append] at h1 ⊢
        rw [noTriple] at h1 ⊢
        split at h1
        · cases h1
        · next hcond =>
          rw [if_neg hcond]
          exact ih h1
      | w :: a3 =>
        simp only [List.cons_append] at h1 ⊢
        rw [noTriple] at h1 ⊢
        split at h1
        · cases h1
        · next hcond =>
          rw [if_neg hcond]
          exact ih h1

theorem emitNlRun_cases (n : Nat) :
    emitNlRun n = [] ∨ emitNlRun n = ['\n'] ∨ emitNlRun n = ['\n', '\n'] := by
  unfold emitNlRun
  split
  · right; right; rfl
  · next hn =>
    match n, hn with
    | 0, _ => left; rfl
    | 1, _ => right; left; rfl
    | 2, _ => right; right; rfl
    | n + 3, hn => exact absurd (by omega) hn

theorem noTriple_nl_nl_cons {c : Char} {Z : Str} (hc : c ≠ '\n')
    (hZ : noTriple (c :: Z) = true) :
    noTriple ('\n' :: '\n' :: c :: Z) = true := by
  rw [noTriple, if_neg (by simp [hc])]
  exact noTriple_nl_cons hc hZ

theorem noTriple_collapseNlAux : ∀ (s : Str) (run : Nat),
    noTriple (collapseNlAux run s) = true := by
  intro s
  induction s with
  | nil =>
    intro run
    rw [collapseNlAux]
    rcases emitNlRun_cases run with h | h | h <;> rw [h] <;> rfl
  | cons c t ih =>
    intro run
    rw [collapseNlAux]
    split
    · exact ih (run + 1)
    · next hc =>
      have hz : noTriple (c :: collapseNlAux 0 t) = true := by
        rw [noTriple_cons_of_ne hc]
        exact ih 0
      rcases emitNlRun_cases run with h | h | h <;> rw [h]
      · exact hz
      · exact noTriple_nl_cons hc hz
      · exact noTriple_nl_nl_cons hc hz

theorem puncts_ne_nl {c : Char} (h : puncts.contains c = true) : c ≠ '\n' := by
  intro hc
  subst hc
  exact absurd h (by decide)

theorem not_space_ne_nl {c : Char} (h : pyIsSpace c = false) : c ≠ '\n' := by
  intro hc
  subst hc
  exact absurd h (by decide)

theorem noTriple_subPunctAux : ∀ (s ws : Str),
    noTriple (ws ++ s) = true → noTriple (subPunctAux ws s) = true := by
  intro s
  induction s with
  | nil =>
    intro ws h
    rw [List.append_nil] at h
    exact h
  | cons c t ih =>
    intro ws h
    rw [subPunctAux]
    split
    · refine ih (ws ++ [c]) ?_
      rw [List.append_assoc]
      exact h
    · next hsp =>
      have hc : c ≠ '\n' := not_space_ne_nl (by simpa using hsp)
      have ht : noTriple t = true :=
        noTriple_of_cons (noTriple_of_append h)
      split
      · rw [noTriple_cons_of_ne hc]
        exact ih [] (by simpa using ht)
      · refine noTriple_append_mid hc (ih [] (by simpa using ht)) ?_
        refine noTriple_take (b := t) ?_
        rw [List.append_assoc]
        exact h

theorem mem_collapseNlAux {c : Char} (hc : c ≠ '\n') :
    ∀ (s : Str) (run : Nat), c ∈ s → c ∈ collapseNlAux run s := by
  intro s
  induction s with
  | nil => intro run h; cases h
  | cons d t ih =>
    intro run h
    rw [collapseNlAux]
    split
    · next hd =>
      rcases List.mem_cons.1 h with h1 | h1
      · exact absurd (h1.trans hd) hc
      · exact ih (run + 1) h1
    · rcases List.mem_cons.1 h with h1 | h1
      · subst h1
        exact List.mem_append.2 (Or.inr (by simp))
      · exact List.mem_append.2 (Or.inr (List.mem_cons_of_mem _ (ih 0 h1)))

theorem exists_nonws_subPunctAux :
    ∀ (s ws : Str), (∃ c ∈ s, pyIsSpace c = false) →
      ∃ c ∈ subPunctAux ws s, pyIsSpace c = false := by
  intro s
  induction s with
  | nil =>
    intro ws h
    rcases h with ⟨c, hc, -⟩
    cases hc
  | cons d t ih =>
    intro ws h
    rw [subPunctAux]
    split
    · next hd =>
      refine ih (ws ++ [d]) ?_
      rcases h with ⟨c, hc, hcs⟩
      rcases List.mem_cons.1 hc with h1 | h1
      · subst h1
        rw [hd] at hcs
        cases hcs
      · exact ⟨c, h1, hcs⟩
    · next hd =>
      split
      · exact ⟨d, by simp, by simpa using hd⟩
      · exact ⟨d, List.mem_append.2 (Or.inr (by simp)), by simpa using hd⟩

theorem emitNlRun_zero : emitNlRun 0 = [] := rfl

theorem emitNlRun_pos {n : Nat} (h : 1 ≤ n) :
    emitNlRun n = ['\n'] ∨ emitNlRun n = ['\n', '\n'] := by
  rcases emitNlRun_cases n with h1 | h1 | h1
  · exfalso
    unfold emitNlRun at h1
    split at h1
    · cases h1
    · next hn =>
      match n, h, hn with
      | 1, _, _ => cases h1
      | 2, _, _ => cases h1
      | n + 3, _, hn => exact absurd (by omega) hn
  · exact Or.inl h1
  · exact Or.inr h1

theorem collapseNlAux_eq (s : Str) : ∀ (run : Nat),
    collapseNlAux run s =
      emitNlRun (run + leadNl s) ++
        collapseNlAux 0 (s.dropWhile (fun c => decide (c = '\n'))) := by
  induction s with
  | nil =>
    intro run
    rw [collapseNlAux]
    show emitNlRun run = emitNlRun (run + leadNl []) ++ collapseNlAux 0 []
    rw [show leadNl [] = 0 from rfl, show collapseNlAux 0 [] = emitNlRun 0 from rfl,
      emitNlRun_zero]
    simp
  | cons c t ih =>
    intro run
    by_cases hc : c = '\n'
    · subst hc
      rw [collapseNlAux]
      rw [if_pos rfl, ih (run + 1)]
      rw [show leadNl ('\n' :: t) = leadNl t + 1 by rw [leadNl]; simp]
      rw [show List.dropWhile (fun c => decide (c = '\n')) ('\n' :: t) =
        List.dropWhile (fun c => decide (c = '\n')) t by
          rw [List.dropWhile_cons_of_pos (by simp)]]
      congr 2
      omega
    · rw [collapseNlAux, if_neg hc]
      rw [show leadNl (c :: t) = 0 by rw [leadNl]; simp [hc]]
      rw [List.dropWhile_cons_of_neg (by simp [hc])]
      rw [collapseNlAux, if_neg hc]
      rw [Nat.add_zero, emitNlRun_zero]
      rfl

theorem splitNl_dropNl (s : Str) :
    splitNl (s.dropWhile (fun c => decide (c = '\n'))) =
      (splitNl s).drop (leadNl s) := by
  induction s with
  | nil => rfl
  | cons c t ih =>
    by_cases hc : c = '\n'
    · subst hc
      rw [List.dropWhile_cons_of_pos (by simp)]
      rw [splitNl_cons_nl]
      rw [show leadNl ('\n' :: t) = leadNl t + 1 by rw [leadNl]; simp]
      rw [List.drop_succ_cons]
      exact ih
    · rw [List.dropWhile_cons_of_neg (by simp [hc])]
      rw [show leadNl (c :: t) = 0 by rw [leadNl]; simp [hc]]
      rfl

theorem head_lines_collapse : ∀ (n : Nat) (s : Str), s.length ≤ n →
    (splitNl (collapseNlAux 0 s)).headD [] = (splitNl s).headD [] := by
  intro n
  induction n with
  | zero =>
    intro s hs
    have hs0 : s = [] := List.length_eq_zero.1 (by omega)
    subst hs0
    rfl
  | succ n ih =>
    intro s hs
    cases s with
    | nil => rfl
    | cons c t =>
      by_cases hc : c = '\n'
      · subst hc
        rw [collapseNlAux_eq]
        have hlead : 1 ≤ 0 + leadNl ('\n' :: t) := by
          rw [leadNl]
          simp
        rcases emitNlRun_pos hlead with h1 | h1 <;> rw [h1]
        · rw [show ('\n' :: ([] : Str)) ++
              collapseNlAux 0 (List.dropWhile (fun c => decide (c = '\n')) ('\n' :: t)) =
              '\n' :: collapseNlAux 0 (List.dropWhile (fun c => decide (c = '\n')) ('\n' :: t))
              from rfl]
          rw [splitNl_cons_nl, splitNl_cons_nl]
          rfl
        · rw [show ('\n' :: '\n' :: ([] : Str)) ++
              collapseNlAux 0 (List.dropWhile (fun c => decide (c = '\n')) ('\n' :: t)) =
              '\n' :: '\n' :: collapseNlAux 0
                (List.dropWhile (fun c => decide (c = '\n')) ('\n' :: t))
              from rfl]
          rw [splitNl_cons_nl, splitNl_cons_nl]
          rfl
      · rw [collapseNlAux, if_neg hc, emitNlRun_zero, List.nil_append]
        rw [splitNl_cons_not_nl _ hc, splitNl_cons_not_nl _ hc]
        have := ih t (by simp only [List.length_cons] at hs; omega)
        simp only [List.headD_eq_head?] at this ⊢
        simp [this]

theorem headD_drop_mem (L : List Str) (m : Nat) :
    (L.drop m).headD [] = [] ∨ (L.drop m).headD [] ∈ L := by
  cases h : L.drop m with
  | nil => left; rfl
  | cons a as =>
    right
    have ha : a ∈ L.drop m := by rw [h]; simp
    have := (List.drop_subset _ _) ha
    simpa [h] using this

theorem leadNl_cons_nl (t : Str) : leadNl ('\n' :: t) = leadNl t + 1 := by
  rw [leadNl]
  simp

theorem tail_lines_collapse : ∀ (n : Nat) (s : Str), s.length ≤ n →
    ∀ l ∈ (splitNl (collapseNlAux 0 s)).tail, l = [] ∨ l ∈ (splitNl s).tail := by
  intro n
  induction n with
  | zero =>
    intro s hs l hl
    have hs0 : s = [] := List.length_eq_zero.1 (by omega)
    subst hs0
    simp [collapseNlAux, emitNlRun_zero, splitNl] at hl
  | succ n ih =>
    intro s hs l hl
    cases s with
    | nil => simp [collapseNlAux, emitNlRun_zero, splitNl] at hl
    | cons c t =>
      by_cases hc : c = '\n'
      · subst hc
        rw [collapseNlAux_eq] at hl
        have hlen : (List.dropWhile (fun c => decide (c = '\n')) ('\n' :: t)).length ≤ n := by
          have h1 : (List.dropWhile (fun c => decide (c = '\n')) ('\n' :: t)).length ≤ t.length := by
            rw [List.dropWhile_cons_of_pos (by simp)]
            exact (List.dropWhile_suffix _).length_le
          simp only [List.length_cons] at hs
          omega
        have hZmem : ∀ x ∈ splitNl (collapseNlAux 0
            (List.dropWhile (fun c => decide (c = '\n')) ('\n' :: t))),
            x = [] ∨ x ∈ splitNl t := by
          intro x hx
          cases hsp : splitNl (collapseNlAux 0
              (List.dropWhile (fun c => decide (c = '\n')) ('\n' :: t))) with
          | nil => exact absurd hsp (splitNl_ne_nil _)
          | cons h0 t0 =>
            rw [hsp] at hx
            rcases List.mem_cons.1 hx with h1 | h1
            · subst h1
              have hhead := head_lines_collapse n
                (List.dropWhile (fun c => decide (c = '\n')) ('\n' :: t)) hlen
              rw [hsp] at hhead
              simp only [List.headD_cons] at hhead
              rw [splitNl_dropNl, splitNl_cons_nl, leadNl_cons_nl,
                List.drop_succ_cons] at hhead
              rcases headD_drop_mem (splitNl t) (leadNl t) with h2 | h2
              · left
                rw [hhead, h2]
              · right
                rw [hhead]
                exact h2
            · have hx' : x ∈ (splitNl (collapseNlAux 0
                  (List.dropWhile (fun c => decide (c = '\n')) ('\n' :: t)))).tail := by
                rw [hsp]
                exact h1
              rcases ih _ hlen x hx' with h2 | h2
              · exact Or.inl h2
              · right
                rw [splitNl_dropNl, splitNl_cons_nl, leadNl_cons_nl,
                  List.drop_succ_cons, List.tail_drop] at h2
                exact (List.drop_subset _ _) h2
        have hk : 1 ≤ 0 + leadNl ('\n' :: t) := by
          rw [leadNl_cons_nl]
          omega
        rcases emitNlRun_pos hk with he | he
        · rw [he] at hl
          rw [show (['\n'] ++ collapseNlAux 0
              (List.dropWhile (fun c => decide (c = '\n')) ('\n' :: t))) =
              '\n' :: collapseNlAux 0
                (List.dropWhile (fun c => decide (c = '\n')) ('\n' :: t)) from rfl,
            splitNl_cons_nl] at hl
          rw [splitNl_cons_nl]
          exact hZmem l (by simpa using hl)
        · rw [he] at hl
          rw [show (['\n', '\n'] ++ collapseNlAux 0
              (List.dropWhile (fun c => decide (c = '\n')) ('\n' :: t))) =
              '\n' :: '\n' :: collapseNlAux 0
                (List.dropWhile (fun c => decide (c = '\n')) ('\n' :: t)) from rfl,
            splitNl_cons_nl, splitNl_cons_nl] at hl
          simp only [List.tail_cons] at hl
          rcases List.mem_cons.1 hl with h1 | h1
          · exact Or.inl h1
          · rw [splitNl_cons_nl]
            exact hZmem l h1
      · rw [collapseNlAux, if_neg hc, emitNlRun_zero, List.nil_append] at hl
        rw [splitNl_cons_not_nl _ hc] at hl
        simp only [List.tail_cons] at hl
        rw [splitNl_cons_not_nl _ hc]
        simp only [List.tail_cons]
        exact ih t (by simp only [List.length_cons] at hs; omega) l hl

theorem linesOk_collapseNl {s : Str} (h : LinesOk s) : LinesOk (collapseNl s) := by
  intro l hl
  unfold collapseNl at hl
  cases hsp : splitNl (collapseNlAux 0 s) with
  | nil => exact absurd hsp (splitNl_ne_nil _)
  | cons h0 t0 =>
    rw [hsp] at hl
    rcases List.mem_cons.1 hl with h1 | h1
    · subst h1
      have hhead := head_lines_collapse s.length s (Nat.le_refl _)
      rw [hsp] at hhead
      simp only [List.headD_cons] at hhead
      cases hsp2 : splitNl s with
      | nil => exact absurd hsp2 (splitNl_ne_nil _)
      | cons q0 q1 =>
        rw [hsp2] at hhead
        simp only [List.headD_cons] at hhead
        rw [hhead]
        exact h q0 (by rw [hsp2]; simp)
    · have hx' : l ∈ (splitNl (collapseNlAux 0 s)).tail := by
        rw [hsp]
        exact h1
      rcases tail_lines_collapse s.length s (Nat.le_refl _) l hx' with h2 | h2
      · exact Or.inl h2
      · exact h l (List.mem_of_mem_tail h2)

theorem getLastD_cons_indep {α : Type} (a : α) (l : List α) (d1 d2 : α) :
    (a :: l).getLastD d1 = (a :: l).getLastD d2 := by
  rw [List.getLastD_cons, List.getLastD_cons]

theorem splitNl_append (A B : Str) :
    splitNl (A ++ B) =
      (splitNl A).dropLast ++
        ((splitNl A).getLastD [] ++ (splitNl B).headD []) :: (splitNl B).tail := by
  induction A with
  | nil =>
    cases hB : splitNl B with
    | nil => exact absurd hB (splitNl_ne_nil _)
    | cons h0 t0 =>
      rw [List.nil_append, hB]
      rfl
  | cons c A' ih =>
    by_cases hc : c = '\n'
    · subst hc
      rw [List.cons_append, splitNl_cons_nl, splitNl_cons_nl, ih]
      cases hA : splitNl A' with
      | nil => exact absurd hA (splitNl_ne_nil _)
      | cons a0 a1 =>
        simp only [List.dropLast_cons₂, List.getLastD_cons, List.cons_append]
    · rw [List.cons_append, splitNl_cons_not_nl _ hc, splitNl_cons_not_nl _ hc, ih]
      cases hA : splitNl A' with
      | nil => exact absurd hA (splitNl_ne_nil _)
      | cons a0 a1 =>
        cases a1 with
        | nil => simp
        | cons a2 a3 =>
          simp only [List.dropLast_cons₂, List.headD_cons, List.tail_cons,
            List.cons_append, List.getLastD_cons]

theorem headLn_eq_takeWhile (s : Str) :
    (splitNl s).headD [] = s.takeWhile (fun c => !decide (c = '\n')) := by
  induction s with
  | nil => rfl
  | cons c t ih =>
    by_cases hc : c = '\n'
    · subst hc
      rw [splitNl_cons_nl, List.takeWhile_cons_of_neg (by simp)]
      rfl
    · rw [splitNl_cons_not_nl _ hc, List.takeWhile_cons_of_pos (by simp [hc])]
      simp only [List.headD_cons]
      rw [ih]

theorem takeWhile_append_of_all {p : Char → Bool} {A : Str} (B : Str)
    (h : ∀ x ∈ A, p x = true) :
    (A ++ B).takeWhile p = A ++ B.takeWhile p := by
  induction A with
  | nil => rfl
  | cons a A' ih =>
    rw [List.cons_append, List.takeWhile_cons_of_pos (h a (by simp))]
    rw [ih (fun x hx => h x (by simp [hx]))]
    rfl

theorem takeWhile_append_of_stop {p : Char → Bool} {A : Str} (B : Str)
    (h : ∃ x ∈ A, p x = false) :
    (A ++ B).takeWhile p = A.takeWhile p := by
  induction A with
  | nil =>
    rcases h with ⟨x, hx, -⟩
    cases hx
  | cons a A' ih =>
    by_cases ha : p a = true
    · rw [List.cons_append, List.takeWhile_cons_of_pos ha,
        List.takeWhile_cons_of_pos ha]
      rcases h with ⟨x, hx, hxp⟩
      rcases List.mem_cons.1 hx with h1 | h1
      · subst h1
        rw [ha] at hxp
        cases hxp
      · rw [ih ⟨x, h1, hxp⟩]
    · rw [List.cons_append, List.takeWhile_cons_of_neg ha,
        List.takeWhile_cons_of_neg ha]

theorem lastLn_append_singleton {c : Char} (hc : c ≠ '\n') :
    ∀ (X : Str), c ∈ (splitNl (X ++ [c])).getLastD [] := by
  intro X
  induction X with
  | nil =>
    rw [List.nil_append, splitNl_cons_not_nl _ hc]
    simp [splitNl]
  | cons x X' ih =>
    by_cases hx : x = '\n'
    · subst hx
      rw [List.cons_append, splitNl_cons_nl]
      cases hA : splitNl (X' ++ [c]) with
      | nil => exact absurd hA (splitNl_ne_nil _)
      | cons a0 a1 =>
        rw [List.getLastD_cons]
        rw [hA] at ih
        exact ih
    · rw [List.cons_append, splitNl_cons_not_nl _ hx]
      cases hA : splitNl (X' ++ [c]) with
      | nil => exact absurd hA (splitNl_ne_nil _)
      | cons a0 a1 =>
        rw [hA] at ih
        simp only [List.headD_cons, List.tail_cons]
        cases a1 with
        | nil =>
          simp only [List.getLastD_cons] at ih ⊢
          simp only [List.getLastD_nil] at ih ⊢
          exact List.mem_cons_of_mem _ ih
        | cons a2 a3 =>
          rw [List.getLastD_cons] at ih ⊢
          rw [getLastD_cons_indep a2 a3 a0 (x :: a0)] at ih
          exact ih

theorem mem_tail_append_left {α : Type} {l : α} {X T : List α} (M : α)
    (h : l ∈ X.tail) : l ∈ (X ++ M :: T).tail := by
  cases X with
  | nil => cases h
  | cons x X' =>
    rw [List.cons_append, List.tail_cons]
    exact List.mem_append.2 (Or.inl h)

theorem mem_tail_append_right {α : Type} {l : α} {T : List α} (X : List α) (M : α)
    (h : l ∈ T) : l ∈ (X ++ M :: T).tail := by
  cases X with
  | nil => exact h
  | cons x X' =>
    rw [List.cons_append, List.tail_cons]
    exact List.mem_append.2 (Or.inr (List.mem_cons_of_mem _ h))

theorem tail_append_mem {α : Type} {l : α} {X T : List α} {M : α}
    (h : l ∈ (X ++ M :: T).tail) : l ∈ X.tail ∨ l = M ∨ l ∈ T := by
  cases X with
  | nil =>
    right
    rw [List.nil_append, List.tail_cons] at h
    exact Or.inr h
  | cons x X' =>
    rw [List.cons_append, List.tail_cons] at h
    rcases List.mem_append.1 h with h1 | h1
    · exact Or.inl h1
    · exact Or.inr (List.mem_cons.1 h1)

theorem headD_mem {α : Type} {L : List α} (h : L ≠ []) (d : α) : L.headD d ∈ L := by
  cases L with
  | nil => exact absurd rfl h
  | cons a b => exact List.mem_cons_self a b

theorem puncts_not_space {c : Char} (h : puncts.contains c = true) :
    pyIsSpace c = false := by
  have hm : c ∈ puncts := by
    rw [List.contains_iff_exists_mem_beq] at h
    rcases h with ⟨x, hx, hbeq⟩
    rwa [beq_iff_eq.1 hbeq]
  simp only [puncts, List.mem_cons, List.not_mem_nil, or_false] at hm
  rcases hm with rfl | rfl | rfl | rfl | rfl | rfl <;> decide

theorem tok_of_append {A B : Str}
    (h : ∀ l ∈ (splitNl (A ++ B)).tail, LineOk l) :
    ∀ l ∈ (splitNl B).tail, LineOk l := by
  intro l hl
  refine h l ?_
  rw [splitNl_append]
  exact mem_tail_append_right _ _ hl

theorem tok_subPunctAux : ∀ (s ws : Str),
    (∀ l ∈ (splitNl (ws ++ s)).tail, LineOk l) →
    ∀ l ∈ (splitNl (subPunctAux ws s)).tail, LineOk l := by
  intro s
  induction s with
  | nil =>
    intro ws h
    rw [List.append_nil] at h
    exact h
  | cons c t ih =>
    intro ws h
    rw [List.append_cons] at h
    rw [subPunctAux]
    split
    · next hsp =>
      refine ih (ws ++ [c]) ?_
      exact h
    · next hsp =>
      have hcns : pyIsSpace c = false := by simpa using hsp
      have hc : c ≠ '\n' := not_space_ne_nl hcns
      have ht : ∀ l ∈ (splitNl (subPunctAux [] t)).tail, LineOk l :=
        ih [] (by simpa using tok_of_append h)
      split
      · intro l hl
        rw [splitNl_cons_not_nl _ hc, List.tail_cons] at hl
        exact ht l hl
      · intro l hl
        rw [List.append_cons, splitNl_append] at hl
        rcases tail_append_mem hl with h1 | h1 | h1
        · refine h l ?_
          rw [splitNl_append]
          exact mem_tail_append_left _ h1
        · subst h1
          refine Or.inr ⟨c, ?_, hcns⟩
          exact List.mem_append.2 (Or.inl (lastLn_append_singleton hc ws))
        · exact ht l h1

theorem hok_subPunctAux : ∀ (s ws : Str),
    (∀ x ∈ ws, pyIsSpace x = true) →
    LineOk ((splitNl (ws ++ s)).headD []) →
    LineOk ((splitNl (subPunctAux ws s)).headD []) := by
  intro s
  induction s with
  | nil =>
    intro ws _ h
    rw [List.append_nil] at h
    exact h
  | cons c t ih =>
    intro ws hws h
    rw [subPunctAux]
    split
    · next hsp =>
      refine ih (ws ++ [c]) ?_ ?_
      · intro x hx
        rcases List.mem_append.1 hx with h1 | h1
        · exact hws x h1
        · rw [List.mem_singleton.1 h1]
          simpa using hsp
      · rw [List.append_assoc]
        exact h
    · next hsp =>
      have hcns : pyIsSpace c = false := by simpa using hsp
      have hc : c ≠ '\n' := not_space_ne_nl hcns
      split
      · rw [splitNl_cons_not_nl _ hc, List.headD_cons]
        exact Or.inr ⟨c, List.mem_cons_self _ _, hcns⟩
      · by_cases hnl : '\n' ∈ ws
        · rw [headLn_eq_takeWhile] at h ⊢
          rw [takeWhile_append_of_stop _ ⟨'\n', hnl, by simp⟩] at h
          rw [takeWhile_append_of_stop _ ⟨'\n', hnl, by simp⟩]
          exact h
        · rw [headLn_eq_takeWhile]
          rw [takeWhile_append_of_all _ (fun x hx => by
            simp only [Bool.not_eq_true']
            exact decide_eq_false (fun he => hnl (he ▸ hx)))]
          refine Or.inr ⟨c, ?_, hcns⟩
          refine List.mem_append.2 (Or.inr ?_)
          rw [List.takeWhile_cons_of_pos (by simp [hc])]
          exact List.mem_cons_self _ _

theorem linesOk_subPunct {s : Str} (h : LinesOk s) : LinesOk (subPunct s) := by
  unfold subPunct
  have hH : LineOk ((splitNl (subPunctAux [] s)).headD []) := by
    refine hok_subPunctAux s [] (by simp) ?_
    rw [List.nil_append]
    exact h _ (headD_mem (splitNl_ne_nil s) [])
  have hT : ∀ l ∈ (splitNl (subPunctAux [] s)).tail, LineOk l := by
    refine tok_subPunctAux s [] ?_
    rw [List.nil_append]
    exact fun l hl => h l (List.tail_subset _ hl)
  intro l hl
  cases hz : splitNl (subPunctAux [] s) with
  | nil => exact absurd hz (splitNl_ne_nil _)
  | cons a b =>
    rw [hz] at hl
    rcases List.mem_cons.1 hl with h1 | h1
    · subst h1
      rw [hz] at hH
      exact hH
    · refine hT l ?_
      rw [hz]
      exact h1

theorem noTriple_no_triple_lines : ∀ s : Str, noTriple s = true →
    s ≠ ['\n', '\n'] → ¬ ([[], [], []] <:+: splitNl s) := by
  intro s
  induction s with
  | nil =>
    intro _ _ hinf
    have := hinf.length_le
    simp [splitNl] at this
  | cons c t ih =>
    intro hs hne hinf
    by_cases hc : c = '\n'
    · subst hc
      rw [splitNl_cons_nl] at hinf
      rcases List.infix_cons_iff.1 hinf with hpre | hinf2
      · have h2 : [([] : Str), []] <+: splitNl t := (List.cons_prefix_cons.1 hpre).2
        cases t with
        | nil =>
          have := h2.length_le
          simp [splitNl] at this
        | cons d u =>
          by_cases hd : d = '\n'
          · subst hd
            rw [splitNl_cons_nl] at h2
            have h3 : [([] : Str)] <+: splitNl u := (List.cons_prefix_cons.1 h2).2
            cases u with
            | nil => exact hne rfl
            | cons e v =>
              by_cases he : e = '\n'
              · subst he
                rw [noTriple] at hs
                simp at hs
              · rw [splitNl_cons_not_nl _ he] at h3
                have := (List.cons_prefix_cons.1 h3).1
                simp at this
          · rw [splitNl_cons_not_nl _ hd] at h2
            have := (List.cons_prefix_cons.1 h2).1
            simp at this
      · have ht : t ≠ ['\n', '\n'] := by
          intro h
          subst h
          rw [noTriple] at hs
          simp at hs
        exact ih (noTriple_of_cons hs) ht hinf2
    · rw [splitNl_cons_not_nl _ hc] at hinf
      rcases List.infix_cons_iff.1 hinf with hpre | hinf2
      · have := (List.cons_prefix_cons.1 hpre).1
        simp at this
      · by_cases ht : t = ['\n', '\n']
        · subst ht
          have hlen := hinf2.length_le
          rw [show (splitNl ['\n', '\n']).tail = [[], []] from rfl] at hlen
          simp at hlen
        · refine ih (noTriple_of_cons hs) ht ?_
          exact hinf2.trans (List.tail_suffix _).isInfix

theorem triple_empty_in_map : ∀ {L : List Str},
    [[], [], []] <:+: L.map pyRStrip →
    ∃ a b d, [a, b, d] <:+: L ∧
      pyRStrip a = [] ∧ pyRStrip b = [] ∧ pyRStrip d = [] := by
  intro L
  induction L with
  | nil =>
    intro h
    have := h.length_le
    simp at this
  | cons x L' ih =>
    intro h
    rw [List.map_cons] at h
    rcases List.infix_cons_iff.1 h with hpre | hinf
    · have h1 := List.cons_prefix_cons.1 hpre
      cases L' with
      | nil =>
        have := h1.2.length_le
        simp at this
      | cons y L2 =>
        rw [List.map_cons] at h1
        have h2 := List.cons_prefix_cons.1 h1.2
        cases L2 with
        | nil =>
          have := h2.2.length_le
          simp at this
        | cons z L3 =>
          rw [List.map_cons] at h2
          have h3 := List.cons_prefix_cons.1 h2.2
          refine ⟨x, y, z, ?_, h1.1.symm, h2.1.symm, h3.1.symm⟩
          exact ⟨[], L3, rfl⟩
    · rcases ih hinf with ⟨a, b, d, hin, ha, hb, hd⟩
      exact ⟨a, b, d, List.infix_cons hin, ha, hb, hd⟩

theorem mem_joinNl {c : Char} {e : Str} : ∀ {ps : List Str},
    e ∈ ps → c ∈ e → c ∈ joinNl ps := by
  intro ps
  induction ps with
  | nil => intro he _; cases he
  | cons p qs ih =>
    intro he hc
    rcases List.mem_cons.1 he with h1 | h1
    · subst h1
      cases qs with
      | nil => exact hc
      | cons q qs' =>
        rw [show joinNl (e :: q :: qs') = e ++ '\n' :: joinNl (q :: qs') from rfl]
        exact List.mem_append.2 (Or.inl hc)
    · cases qs with
      | nil => cases h1
      | cons q qs' =>
        rw [show joinNl (p :: q :: qs') = p ++ '\n' :: joinNl (q :: qs') from rfl]
        exact List.mem_append.2 (Or.inr (List.mem_cons_of_mem _ (ih h1 hc)))

theorem finalCleanup_good {md : List Str} (h : MdOk md) :
    ¬ ([[], [], []] <:+: splitNl (finalCleanup md)) ∧
    ∀ l ∈ splitNl (finalCleanup md), ∀ c, l.getLast? = some c →
      pyIsSpace c = false := by
  have hsplit : splitNl (finalCleanup md) =
      (splitNl (subPunct (collapseNl (joinNl md)))).map pyRStrip := by
    unfold finalCleanup
    refine splitNl_joinNl ?_ ?_
    · simp [splitNl_ne_nil]
    · intro p hp
      rcases List.mem_map.1 hp with ⟨l, hl, hpl⟩
      exact hpl ▸ pyRStrip_no_nl (splitNl_no_nl _ l hl)
  have hL2 : LinesOk (subPunct (collapseNl (joinNl md))) :=
    linesOk_subPunct (linesOk_collapseNl (linesOk_joinNl h.1))
  have hnt2 : noTriple (subPunct (collapseNl (joinNl md))) = true := by
    refine noTriple_subPunctAux _ [] ?_
    rw [List.nil_append]
    exact noTriple_collapseNlAux _ 0
  have hne2 : subPunct (collapseNl (joinNl md)) ≠ ['\n', '\n'] := by
    rcases h.2 with hnil | ⟨e, he, d, hd, hdns⟩
    · subst hnil
      intro hcontra
      rw [show subPunct (collapseNl (joinNl [])) = [] from rfl] at hcontra
      cases hcontra
    · have hnn : ∃ c2 ∈ subPunct (collapseNl (joinNl md)), pyIsSpace c2 = false := by
        refine exists_nonws_subPunctAux _ [] ?_
        refine ⟨d, ?_, hdns⟩
        exact mem_collapseNlAux (not_space_ne_nl hdns) _ 0 (mem_joinNl he hd)
      intro hcontra
      rcases hnn with ⟨c2, hc2, hc2ns⟩
      rw [hcontra] at hc2
      rcases List.mem_cons.1 hc2 with h1 | h1
      · subst h1; exact absurd hc2ns (by decide)
      · rw [List.mem_singleton.1 h1] at hc2ns
        exact absurd hc2ns (by decide)
  constructor
  · rw [hsplit]
    intro hinf
    rcases triple_empty_in_map hinf with ⟨a, b, d, hin, ha, hb, hd⟩
    have hsub := hin.sublist.subset
    have haOk := hL2 a (hsub (by simp))
    have hbOk := hL2 b (hsub (by simp))
    have hdOk := hL2 d (hsub (by simp))
    have hae : a = [] := by
      rcases haOk with h1 | ⟨c2, hc2, hc2ns⟩
      · exact h1
      · exact absurd (pyRStrip_eq_nil_iff.1 ha c2 hc2) (by simp [hc2ns])
    have hbe : b = [] := by
      rcases hbOk with h1 | ⟨c2, hc2, hc2ns⟩
      · exact h1
      · exact absurd (pyRStrip_eq_nil_iff.1 hb c2 hc2) (by simp [hc2ns])
    have hde : d = [] := by
      rcases hdOk with h1 | ⟨c2, hc2, hc2ns⟩
      · exact h1
      · exact absurd (pyRStrip_eq_nil_iff.1 hd c2 hc2) (by simp [hc2ns])
    subst hae; subst hbe; subst hde
    exact noTriple_no_triple_lines _ hnt2 hne2 hin
  · rw [hsplit]
    intro l hl c hc
    rcases List.mem_map.1 hl with ⟨x, _, hxl⟩
    subst hxl
    exact pyRStrip_last_not_space hc

/-- C6: the final cleanup guarantees of `convert_to_markdown` hold: the
returned markdown never contains three consecutive blank lines (the
`re.sub(r'\n\x7b3,\x7d', '\n\n', ...)` pass), and no line of the output ends in
whitespace (the per-line `rstrip` pass). -/
theorem no_triple_blank_and_no_trailing_ws (pages : List Str) (noise : Str → Bool) :
    ¬ ([[], [], []] <:+: splitNl (convert_to_markdown pages noise)) ∧
    ∀ l ∈ splitNl (convert_to_markdown pages noise),
      ∀ c, l.getLast? = some c → pyIsSpace c = false := by
  unfold convert_to_markdown
  have hst : GoodSt (pages.enum.foldl (fun s p => processPage noise s p.1 p.2)
      ⟨[], [], [], false⟩) := by
    refine goodSt_foldl noise pages.enum _ ?_
    exact ⟨⟨by simp, Or.inl rfl⟩, by simp, by simp⟩
  exact finalCleanup_good (mdOk_flushList (mdOk_flushList hst.1 hst.2.2) hst.2.1)

end Pdf2Md
